import Mathlib

/-!
# Verification of the `hyperion` Redis-backed graph store

Shallow embedding of `src/hyperion/core.py` (a Python 2 module storing a
labeled, weighted, directed graph in Redis) and proofs about the claims of
the specification.

Modelling conventions:

* The Redis database reachable from a `Graph` instance is modelled
  structurally by `GraphState`: one field per key family used by the code
  (`V(G)` vertex set, `|V|` counter, `V:{name}` property hashes,
  `L(E(V)):out/in:{v}` label-count sorted sets and `E(V):out/in:{v}:{label}`
  adjacency sorted sets).  Key strings are built by joining with `:`; the
  structural model identifies a key with its (family, parts) decomposition.
* Redis sorted sets are association lists `member ↦ score` (`ZSet`); scores
  are modelled as `ℚ` (Redis scores are doubles; the code only ever stores
  weights, and adds `±1` to counters, so rational arithmetic is exact here).
* `zrangebyscore` returns members ordered by score, ties broken by the
  member string (Redis semantics), which `zsort` reproduces.
* Python exceptions are modelled by `Err`; an operation that both mutates
  and may raise returns `GraphState × Except Err β`, where the state
  component reflects exactly the mutations performed before the raise.
* Labels and property values are encoded by the pluggable
  encoder/decoder pair given to the `Graph` constructor (default
  `json.dumps`/`json.loads`).  Operation embeddings are parameterised by the
  encoder; `_enc`-suffixed cores work on already-encoded label strings.
  `Edge` handles in the source carry the decoded label and re-encode it on
  removal; since the stored encoded labels are exactly the encoder's
  images, the embedding carries the encoded string through unchanged.
-/

namespace Hyperion

/-- A Redis sorted set: association list from member to score.  All states
built by the operations keep member keys duplicate-free. -/
abbrev ZSet := List (String × ℚ)

/-- Redis `ZSCORE`: the score of a member, if present. -/
def zscore : ZSet → String → Option ℚ
  | [], _ => none
  | (k, v) :: z, m => if k = m then some v else zscore z m

/-- Redis `ZREM` (single member). -/
def zrem : ZSet → String → ZSet
  | [], _ => []
  | (k, v) :: z, m => if k = m then zrem z m else (k, v) :: zrem z m

/-- Redis `ZADD`: insert a member or overwrite its score. -/
def zadd (z : ZSet) (m : String) (w : ℚ) : ZSet := zrem z m ++ [(m, w)]

/-- Redis `ZINCRBY`: add `d` to the member's score, treating an absent
member as having score 0 (the member is created in that case). -/
def zincrby (z : ZSet) (m : String) (d : ℚ) : ZSet :=
  zadd z m ((zscore z m).getD 0 + d)

/-- Ordering used by Redis to enumerate a sorted set: by score, ties broken
lexicographically by member. -/
def zle (a b : String × ℚ) : Prop :=
  a.2 < b.2 ∨ (a.2 = b.2 ∧ a.1 ≤ b.1)

instance : DecidableRel zle := fun a b => by
  unfold zle
  infer_instance

/-- Enumeration order of a sorted set (Redis keeps the set sorted; the
model sorts at query time, which is observationally the same). -/
def zsort (z : ZSet) : ZSet := z.insertionSort zle

/-- Redis `ZRANGEBYSCORE key 1 +inf`: members with score ≥ 1, in order. -/
def zrangeGE1 (z : ZSet) : ZSet := zsort (z.filter (fun p => decide (1 ≤ p.2)))

/-- Redis `ZRANGEBYSCORE key -inf +inf WITHSCORES`: all members in order. -/
def zrangeAll (z : ZSet) : ZSet := zsort z

/-- Redis `SADD` (single member): updated set plus reply (1 if newly
inserted, 0 if the member was already present). -/
def sadd (l : List String) (x : String) : List String × Nat :=
  if x ∈ l then (l, 0) else (l ++ [x], 1)

/-- Python exception outcomes of the operations.  The source raises
`LookupError` both for a missing vertex (`get_vertex`) and for a duplicate
name (`add_vertex`), with distinct messages; the spec calls these
`NotFound` and `AlreadyExists`.  `KeyError` is a missing property,
`RuntimeError` ("invalid record") the bulk-load format error, `ValueError`
a non-numeric weight field in `float()`. -/
inductive Err where
  | alreadyExists
  | notFound
  | keyError
  | formatError
  | valueError
  deriving DecidableEq

/-- The Redis state reachable from one `Graph(r, name)` instance, split by
key family. -/
structure GraphState where
  /-- `name:V(G)` — the vertex-name set (Redis unordered set). -/
  vertices : List String
  /-- `name:|V|` — the auto-naming counter. -/
  counter : Int
  /-- `name:V:{v}` — per-vertex property hash, field ↦ encoded value. -/
  props : String → String → Option String
  /-- `name:L(E(V)):out:{v}` — outgoing label-count sorted set. -/
  labelsOut : String → ZSet
  /-- `name:L(E(V)):in:{v}` — incoming label-count sorted set. -/
  labelsIn : String → ZSet
  /-- `name:E(V):out:{v}:{label}` — outgoing adjacency, neighbor ↦ weight. -/
  edgesOut : String → String → ZSet
  /-- `name:E(V):in:{v}:{label}` — incoming adjacency, neighbor ↦ weight. -/
  edgesIn : String → String → ZSet

/-- An empty Redis database. -/
def initState : GraphState :=
  { vertices := []
    counter := 0
    props := fun _ _ => none
    labelsOut := fun _ => []
    labelsIn := fun _ => []
    edgesOut := fun _ _ => []
    edgesIn := fun _ _ => [] }

/-- Point update of a one-argument key family. -/
def upd1 {β : Type} (f : String → β) (k : String) (v : β) : String → β :=
  fun x => if x = k then v else f x

/-- Point update of a two-argument key family. -/
def upd2 {β : Type} (f : String → String → β) (k1 k2 : String) (v : β) :
    String → String → β :=
  fun x y => if x = k1 ∧ y = k2 then v else f x y

/-- An `Edge` handle: `Edge(g, fromv, tov, label, weight)`.  The label is
carried in encoded form (see the header comment). -/
structure EdgeRep where
  fromName : String
  toName : String
  encLabel : String
  weight : ℚ
  deriving DecidableEq, Repr

/-- `Graph.has_vertex`: `SISMEMBER` on the vertex set. -/
def has_vertex (s : GraphState) (n : String) : Bool :=
  decide (n ∈ s.vertices)

/-- `Graph.get_vertex` on a name: raises `LookupError` ("does not exist")
if the name is not in the vertex set. -/
def get_vertex (s : GraphState) (n : String) : Except Err String :=
  if n ∈ s.vertices then .ok n else .error .notFound

/-- `Graph._store_vertex`: `SADD` of the name, returning the reply. -/
def store_vertex (s : GraphState) (n : String) : GraphState × Nat :=
  let p := sadd s.vertices n
  ({ s with vertices := p.1 }, p.2)

/-- `Graph.add_vertex(name=None)`.  With no name, `INCR` the counter and
use its decimal form; then `SADD`, raising `LookupError` ("already
exists") when the reply is not 1.  The state component carries the
mutations performed even when the call raises. -/
def add_vertex (s : GraphState) (name : Option String) :
    GraphState × Except Err String :=
  match name with
  | none =>
    let c := s.counter + 1
    let n := toString c
    let p := store_vertex { s with counter := c } n
    if p.2 = 1 then (p.1, .ok n) else (p.1, .error .alreadyExists)
  | some n =>
    let p := store_vertex s n
    if p.2 = 1 then (p.1, .ok n) else (p.1, .error .alreadyExists)

/-- `Graph.order`: `SCARD` of the vertex set. -/
def order (s : GraphState) : Nat := s.vertices.length

/-- `Graph.get_vertex_property`: `HGET`, then Python truthiness check
`if not value: raise KeyError(name)` — which also fires when the stored
encoded value is the empty string — then decode. -/
def get_vertex_property {α : Type} (dec : String → α) (s : GraphState)
    (v k : String) : Except Err α :=
  match s.props v k with
  | none => .error .keyError
  | some val => if val = "" then .error .keyError else .ok (dec val)

/-- `Graph.set_vertex_property`: `HSET` of the encoded value.  No vertex
existence check is performed. -/
def set_vertex_property {α : Type} (enc : α → String) (s : GraphState)
    (v k : String) (val : α) : GraphState :=
  { s with props := fun x y => if x = v ∧ y = k then some (enc val) else s.props x y }

/-- `Graph._store_edge` on an already-encoded label: increment the
out-label counter of `f`, upsert the out-adjacency weight, increment the
in-label counter of `t`, upsert the in-adjacency weight. -/
def store_edge (s : GraphState) (f t el : String) (w : ℚ) : GraphState :=
  { s with
    labelsOut := upd1 s.labelsOut f (zincrby (s.labelsOut f) el 1)
    edgesOut := upd2 s.edgesOut f el (zadd (s.edgesOut f el) t w)
    labelsIn := upd1 s.labelsIn t (zincrby (s.labelsIn t) el 1)
    edgesIn := upd2 s.edgesIn t el (zadd (s.edgesIn t el) f w) }

/-- `Graph.add_edge` after label encoding: resolve both endpoints (raising
`LookupError` if either is absent, `from` checked first), then
`_store_edge` in one pipeline, returning the `Edge` handle. -/
def add_edge_enc (s : GraphState) (f t el : String) (w : ℚ) :
    GraphState × Except Err EdgeRep :=
  if f ∈ s.vertices then
    if t ∈ s.vertices then
      (store_edge s f t el w, .ok ⟨f, t, el, w⟩)
    else (s, .error .notFound)
  else (s, .error .notFound)

/-- `Graph.add_edge(fromv, tov, label=None, weight=1.0)`. -/
def add_edge {α : Type} (enc : α → String) (s : GraphState) (f t : String)
    (label : α) (w : ℚ) : GraphState × Except Err EdgeRep :=
  add_edge_enc s f t (enc label) w

/-- `Graph.remove_edge` after label encoding: unconditionally `ZINCRBY -1`
both label counters and `ZREM` both adjacency entries; no existence check
of any kind.  The Python method always returns `True`. -/
def remove_edge_enc (s : GraphState) (f t el : String) : GraphState :=
  { s with
    labelsOut := upd1 s.labelsOut f (zincrby (s.labelsOut f) el (-1))
    edgesOut := upd2 s.edgesOut f el (zrem (s.edgesOut f el) t)
    labelsIn := upd1 s.labelsIn t (zincrby (s.labelsIn t) el (-1))
    edgesIn := upd2 s.edgesIn t el (zrem (s.edgesIn t el) f) }

/-- `Graph.remove_edge(e)` on a handle `e = Edge(g, f, t, label, _)`:
the stored label is re-encoded from the handle. -/
def remove_edge {α : Type} (enc : α → String) (s : GraphState) (f t : String)
    (label : α) : GraphState :=
  remove_edge_enc s f t (enc label)

/-- The edge list produced by the `Graph.edges_from` generator: labels of
`v` with out-count ≥ 1, and for each such label every `(neighbor, weight)`
entry of the out-adjacency set, as `Edge` handles. -/
def edgesFromList (s : GraphState) (v : String) : List EdgeRep :=
  (zrangeGE1 (s.labelsOut v)).flatMap (fun p =>
    (zrangeAll (s.edgesOut v p.1)).map (fun q => ⟨v, q.1, p.1, q.2⟩))

/-- The edge list produced by the `Graph.edges_to` generator. -/
def edgesToList (s : GraphState) (v : String) : List EdgeRep :=
  (zrangeGE1 (s.labelsIn v)).flatMap (fun p =>
    (zrangeAll (s.edgesIn v p.1)).map (fun q => ⟨q.1, v, p.1, q.2⟩))

/-- `Graph.edges_from(v)` (and `Vertex.edges_out`): `get_vertex` first,
then the generator. -/
def edges_from (s : GraphState) (v : String) : Except Err (List EdgeRep) :=
  if v ∈ s.vertices then .ok (edgesFromList s v) else .error .notFound

/-- `Graph.edges_to(v)` (and `Vertex.edges_in`). -/
def edges_to (s : GraphState) (v : String) : Except Err (List EdgeRep) :=
  if v ∈ s.vertices then .ok (edgesToList s v) else .error .notFound

/-- Removal of a list of edges (by handle), as the loops of
`Graph.remove_vertex` perform it. -/
def removeAll (s : GraphState) (es : List EdgeRep) : GraphState :=
  es.foldl (fun st e => remove_edge_enc st e.fromName e.toName e.encLabel) s

/-- `Graph.remove_vertex(v)`: resolve `v`, remove every edge yielded by
`edges_out`, then every edge yielded by `edges_in`, then `SREM` the name.

The generators are lazy, but the removal loops are equivalent to eager
enumeration: `edges_from` reads the label list before any removal, and
each label's member list before removing that label's edges, while
removing an edge of label `l` never touches the out-adjacency set of a
different label — so the first loop removes exactly the out-edges
enumerated on the initial state.  The second generator only starts after
the first loop finished, so it enumerates the intermediate state (in
particular, a self-loop was already expunged from the in-adjacency sets by
the first loop and is not removed twice). -/
def remove_vertex (s : GraphState) (v : String) : GraphState × Except Err Nat :=
  if v ∈ s.vertices then
    let s1 := removeAll s (edgesFromList s v)
    let s2 := removeAll s1 (edgesToList s1 v)
    ({ s2 with vertices := s2.vertices.filter (fun x => decide (x ≠ v)) }, .ok 1)
  else (s, .error .notFound)

/-- `Graph.edge_between` after label encoding: `ZSCORE` the `v1 → v2`
out-adjacency first, then `v2 → v1`, returning the first hit oriented
accordingly, else `None`.  No vertex existence check. -/
def edge_between_enc (s : GraphState) (v1 v2 el : String) : Option EdgeRep :=
  match zscore (s.edgesOut v1 el) v2 with
  | some w => some ⟨v1, v2, el, w⟩
  | none =>
    match zscore (s.edgesOut v2 el) v1 with
    | some w => some ⟨v2, v1, el, w⟩
    | none => none

/-- `Graph.edge_between(v1, v2, label=None)`. -/
def edge_between {α : Type} (enc : α → String) (s : GraphState)
    (v1 v2 : String) (label : α) : Option EdgeRep :=
  edge_between_enc s v1 v2 (enc label)

/-! ## The default label codec

`Graph.__init__` defaults `encoder=json.dumps`.  The labels exercised by
the tests and the loader are `None` and plain strings, modelled as
`Option String`; escaping of special characters inside the string is not
reproduced (no claim uses such a label). -/

/-- `json.dumps` restricted to `None` and plain strings. -/
def jsonEnc : Option String → String
  | none => "null"
  | some l => "\"" ++ l ++ "\""

/-! ## Result-set algebra (`ComponentSet`, `VertexSet`, `EdgeSet`)

`ComponentSet` subclasses the built-in `set`.  `Vertex` and `Edge` define
`__eq__` but no `__hash__`, so under Python 2 they keep the default
identity-based hash: set insertion first buckets by `hash(obj) = id(obj)`
and only consults `__eq__` on a hash collision.  A Python object is
therefore modelled as a pair `(id, payload)`, and every handle produced by
a traversal generator is a fresh object carrying a fresh id (modelled by
`List.enum` indices). -/

/-- CPython set insertion for objects with the default identity hash:
an element is dropped only if an object with the same id is present. -/
def pySetAdd {β : Type} (s : List (Nat × β)) (x : Nat × β) : List (Nat × β) :=
  if s.any (fun y => y.1 == x.1) then s else s ++ [x]

/-- CPython `set(iterable)` construction over identity-hashed objects. -/
def pySet {β : Type} (xs : List (Nat × β)) : List (Nat × β) :=
  xs.foldl pySetAdd []

/-- `Vertex.out_e`: `EdgeSet(self.edges_out())` — the generator yields one
fresh `Edge` object per adjacency entry. -/
def vertex_out_e (s : GraphState) (v : String) : List (Nat × EdgeRep) :=
  pySet (edgesFromList s v).enum

/-- `EdgeSet.in_v`: `VertexSet(e.tov for e in self)` — one fresh `Vertex`
object (carrying the target name) per member edge. -/
def edgeSet_in_v (es : List (Nat × EdgeRep)) : List (Nat × String) :=
  pySet (es.map (fun p => (p.1, p.2.toName)))

/-- The names of the members of `v.out_e.in_v`, as the code computes them. -/
def out_e_in_v_names (s : GraphState) (v : String) : List String :=
  (edgeSet_in_v (vertex_out_e s v)).map Prod.snd

/-- Modelled from the spec (not the source), for comparison: the
deduplicated set of distinct target names of `v`'s outgoing edges, which
the spec claims `v.out_e.in_v` equals. -/
def specDistinctTargets (s : GraphState) (v : String) : List String :=
  ((edgesFromList s v).map EdgeRep.toName).dedup

/-! ## Bulk loader (`Graph._load_file`)

String processing is embedded at the character-list level (`String.data`),
which matches Python's byte-string semantics and keeps the definitions
kernel-reducible. -/

/-- Python `str.strip()`: drop leading and trailing whitespace.  (Python
additionally strips `\v`/`\f`, which never occur in the claims.) -/
def trimChars (cs : List Char) : List Char :=
  ((cs.dropWhile Char.isWhitespace).reverse.dropWhile Char.isWhitespace).reverse

/-- `str.strip()` on a string value. -/
def pyStrip (s : String) : String := String.mk (trimChars s.data)

/-- Python `str.split(d)` for a one-character separator: split at every
occurrence, keeping empty fields (`"".split(d) == [""]`). -/
def splitChar (d : Char) : List Char → List (List Char)
  | [] => [[]]
  | c :: cs =>
    match splitChar d cs with
    | [] => [[]]
    | g :: gs => if c = d then [] :: g :: gs else (c :: g) :: gs

/-- `map(str.strip, line.split(delim))`. -/
def pyFields (delim : Char) (line : String) : List String :=
  (splitChar delim line.data).map (fun g => pyStrip (String.mk g))

/-- Decimal digit run to a number; `none` when empty or non-digit. -/
def digitsToNat (cs : List Char) : Option Nat :=
  if cs = [] then none
  else if cs.all Char.isDigit then
    some (cs.foldl (fun a c => 10 * a + (c.toNat - 48)) 0)
  else none

/-- Fractional digit run `.d₁…dₙ` as a rational. -/
def fracToRat (cs : List Char) : Option ℚ :=
  (digitsToNat cs).map (fun n => (n : ℚ) / 10 ^ cs.length)

/-- Python `float()` on the decimal forms `[±]ddd`, `[±]ddd.ddd`,
`[±].ddd`, `[±]ddd.` (with surrounding whitespace stripped).  Exponent,
`inf` and `nan` forms are not modelled; no claim depends on them. -/
def parseFloat (s : String) : Option ℚ :=
  let t := trimChars s.data
  let neg := t.head? = some '-'
  let body := if t.head? = some '-' ∨ t.head? = some '+' then t.tail else t
  let mag : Option ℚ :=
    match splitChar '.' body with
    | [a] => (digitsToNat a).map (fun n => (n : ℚ))
    | [a, b] =>
      if a = [] then fracToRat b
      else if b = [] then (digitsToNat a).map (fun n => (n : ℚ))
      else
        match digitsToNat a, fracToRat b with
        | some n, some q => some ((n : ℚ) + q)
        | _, _ => none
    | _ => none
  if neg then mag.map (fun q => -q) else mag

/-- One record's store work: `_store_vertex` both endpoints (replies
ignored, so an existing vertex is fine) then `_store_edge`. -/
def storeRecord (enc : Option String → String) (s : GraphState) (f : String)
    (lab : Option String) (t : String) (w : ℚ) : GraphState :=
  store_edge (store_vertex (store_vertex s f).1 t).1 f t (enc lab) w

/-- One line of the loader body: strip, skip comments (`#`) and blanks,
split on the delimiter, trim fields, dispatch on the field count —
2 fields `(from, to)`, 3 fields `(from, label, to)`, 4 fields
`(from, label, to, weight)` with `float(weight)` — and raise
`RuntimeError("invalid record")` on any other count. -/
def processLine (enc : Option String → String) (delim : Char)
    (s : GraphState) (raw : String) : Except Err GraphState :=
  let line := pyStrip raw
  if line.data.head? = some '#' ∨ line.data = [] then .ok s
  else
    match pyFields delim line with
    | [f, t] => .ok (storeRecord enc s f none t 1)
    | [f, lab, t] => .ok (storeRecord enc s f (some lab) t 1)
    | [f, lab, t, wstr] =>
      match parseFloat wstr with
      | some w => .ok (storeRecord enc s f (some lab) t w)
      | none => .error .valueError
    | _ => .error .formatError

/-- One chunk, one pipeline: the buffered commands take effect only at
`pipe.execute()`, so a raise anywhere in the chunk discards the whole
chunk (the `with` block never executes the pipeline). -/
def processChunk (enc : Option String → String) (delim : Char)
    (s : GraphState) (lines : List String) : Except Err GraphState :=
  lines.foldlM (fun st l => processLine enc delim st l) s

/-- The `chunker` helper: split the line list into runs of `n` (the last
may be shorter).  `n ≥ 1` (the code defaults to 2000). -/
def chunksOf {β : Type} (n : Nat) : List β → List (List β)
  | [] => []
  | x :: xs => (x :: xs.take (n - 1)) :: chunksOf n (xs.drop (n - 1))
termination_by l => l.length
decreasing_by
  simp only [List.length_drop, List.length_cons]
  omega

/-- The chunk loop of `_load_file`: apply chunks in order; on the first
raise, stop with the state left by the already-executed chunks. -/
def loadChunks (enc : Option String → String) (delim : Char)
    (s : GraphState) : List (List String) → GraphState × Option Err
  | [] => (s, none)
  | c :: cs =>
    match processChunk enc delim s c with
    | .ok s1 => loadChunks enc delim s1 cs
    | .error e => (s, some e)

/-- `Graph._load_file(filename, chunksize, delim)` over the file's lines. -/
def load_file (enc : Option String → String) (s : GraphState)
    (lines : List String) (chunksize : Nat) (delim : Char) :
    GraphState × Option Err :=
  loadChunks enc delim s (chunksOf chunksize lines)

/-- `Graph.load_csv(filename, chunksize=2000)`. -/
def load_csv (enc : Option String → String) (s : GraphState)
    (lines : List String) (chunksize : Nat) : GraphState × Option Err :=
  load_file enc s lines chunksize ','

/-- `Graph.load_tsv(filename, chunksize=2000)`. -/
def load_tsv (enc : Option String → String) (s : GraphState)
    (lines : List String) (chunksize : Nat) : GraphState × Option Err :=
  load_file enc s lines chunksize '\t'

/-! ## Sorted-set lemmas -/

/-- The member keys of a sorted set. -/
def keys (z : ZSet) : List String := z.map Prod.fst

/-- Member keys are duplicate-free (true of every Redis sorted set and of
every state the operations construct). -/
def nodupKeys (z : ZSet) : Prop := (keys z).Nodup

theorem keys_cons (k : String) (v : ℚ) (z : ZSet) :
    keys ((k, v) :: z) = k :: keys z := rfl

theorem mem_keys {z : ZSet} {m : String} : m ∈ keys z ↔ ∃ w, (m, w) ∈ z := by
  constructor
  · intro h
    obtain ⟨⟨a, b⟩, hab, h2⟩ := List.mem_map.mp h
    exact ⟨b, by simpa [← h2] using hab⟩
  · rintro ⟨w, hw⟩
    exact List.mem_map.mpr ⟨(m, w), hw, rfl⟩

theorem nodupKeys_cons {k : String} {v : ℚ} {z : ZSet} :
    nodupKeys ((k, v) :: z) ↔ k ∉ keys z ∧ nodupKeys z := by
  simp [nodupKeys, keys_cons, List.nodup_cons]

theorem zscore_eq_none {z : ZSet} {m : String} :
    zscore z m = none ↔ m ∉ keys z := by
  induction z with
  | nil => simp [zscore, keys]
  | cons p z ih =>
    obtain ⟨k, v⟩ := p
    rw [keys_cons]
    by_cases h : k = m
    · subst h
      simp [zscore]
    · simp only [zscore, if_neg h, ih, List.mem_cons]
      constructor
      · intro hm hc
        rcases hc with hc | hc
        · exact h hc.symm
        · exact hm hc
      · intro hm hc
        exact hm (Or.inr hc)

theorem mem_keys_of_zscore {z : ZSet} {m : String} {w : ℚ}
    (h : zscore z m = some w) : m ∈ keys z := by
  by_contra hm
  rw [← zscore_eq_none] at hm
  simp [h] at hm

theorem mem_of_zscore {z : ZSet} {m : String} {w : ℚ}
    (h : zscore z m = some w) : (m, w) ∈ z := by
  induction z with
  | nil => simp [zscore] at h
  | cons p z ih =>
    obtain ⟨k, v⟩ := p
    by_cases hk : k = m
    · subst hk
      simp [zscore] at h
      simp [h]
    · simp [zscore, hk] at h
      simp [ih h]

theorem zscore_of_mem {z : ZSet} {m : String} {w : ℚ}
    (hnd : nodupKeys z) (h : (m, w) ∈ z) : zscore z m = some w := by
  induction z with
  | nil => simp at h
  | cons p z ih =>
    obtain ⟨k, v⟩ := p
    rw [nodupKeys_cons] at hnd
    rcases List.mem_cons.mp h with h1 | h1
    · rw [show k = m from (Prod.mk.injEq _ _ _ _ ▸ h1.symm : _ ∧ _).1,
        show v = w from (Prod.mk.injEq _ _ _ _ ▸ h1.symm : _ ∧ _).2]
      simp [zscore]
    · have hk : k ≠ m := by
        rintro rfl
        exact hnd.1 (mem_keys.mpr ⟨w, h1⟩)
      simp [zscore, hk, ih hnd.2 h1]

theorem zrem_sublist (z : ZSet) (m : String) : (zrem z m).Sublist z := by
  induction z with
  | nil => simp [zrem]
  | cons p z ih =>
    obtain ⟨k, v⟩ := p
    by_cases h : k = m
    · rw [zrem, if_pos h]
      exact ih.cons _
    · rw [zrem, if_neg h]
      exact ih.cons₂ _

theorem zscore_zrem (z : ZSet) (m m' : String) :
    zscore (zrem z m) m' = if m' = m then none else zscore z m' := by
  induction z with
  | nil => simp [zrem, zscore]
  | cons p z ih =>
    obtain ⟨k, v⟩ := p
    by_cases hk : k = m
    · subst hk
      rw [zrem, if_pos rfl, ih]
      by_cases hm : m' = k
      · simp [hm]
      · simp [hm, zscore, Ne.symm hm]
    · rw [zrem, if_neg hk]
      by_cases hm : k = m'
      · have hm2 : ¬m' = m := fun hc => hk (by rw [hm, hc])
        simp [zscore, hm, hm2]
      · simp [zscore, hm, ih]

theorem nodupKeys_zrem {z : ZSet} (m : String) (h : nodupKeys z) :
    nodupKeys (zrem z m) :=
  h.sublist ((zrem_sublist z m).map Prod.fst)

theorem zrem_eq_self {z : ZSet} {m : String} (h : m ∉ keys z) :
    zrem z m = z := by
  induction z with
  | nil => simp [zrem]
  | cons p z ih =>
    obtain ⟨k, v⟩ := p
    rw [keys_cons, List.mem_cons] at h
    push_neg at h
    rw [zrem, if_neg (fun hc => h.1 hc.symm), ih h.2]

theorem length_zrem_of_mem {z : ZSet} {m : String} (hnd : nodupKeys z)
    (h : m ∈ keys z) : (zrem z m).length + 1 = z.length := by
  induction z with
  | nil => simp [keys] at h
  | cons p z ih =>
    obtain ⟨k, v⟩ := p
    rw [nodupKeys_cons] at hnd
    by_cases hk : k = m
    · subst hk
      rw [zrem, if_pos rfl, zrem_eq_self hnd.1]
      simp
    · rw [keys_cons, List.mem_cons] at h
      rcases h with h | h
      · exact absurd h.symm hk
      · rw [zrem, if_neg hk]
        simpa using ih hnd.2 h

theorem zscore_zadd (z : ZSet) (m m' : String) (w : ℚ) :
    zscore (zadd z m w) m' = if m' = m then some w else zscore z m' := by
  have happ : ∀ (z1 z2 : ZSet) (x : String), zscore (z1 ++ z2) x =
      match zscore z1 x with
      | some u => some u
      | none => zscore z2 x := by
    intro z1 z2 x
    induction z1 with
    | nil => simp [zscore]
    | cons p z1 ih =>
      obtain ⟨k, v⟩ := p
      by_cases hk : k = x <;> simp [zscore, hk, ih]
  rw [zadd, happ, zscore_zrem]
  by_cases h : m' = m
  · simp [h, zscore]
  · have h2 : ¬m = m' := fun hc => h hc.symm
    cases hz : zscore z m' <;> simp [h, hz, zscore, h2]

theorem keys_zadd (z : ZSet) (m : String) (w : ℚ) :
    keys (zadd z m w) = keys (zrem z m) ++ [m] := by
  simp [zadd, keys]

theorem nodupKeys_zadd {z : ZSet} (m : String) (w : ℚ) (h : nodupKeys z) :
    nodupKeys (zadd z m w) := by
  unfold nodupKeys
  rw [keys_zadd]
  refine List.Nodup.append (nodupKeys_zrem m h) (by simp) ?_
  intro a ha hb
  simp only [List.mem_singleton] at hb
  subst hb
  obtain ⟨w2, hw2⟩ := mem_keys.mp ha
  have : zscore (zrem z a) a = some w2 :=
    zscore_of_mem (nodupKeys_zrem a h) hw2
  rw [zscore_zrem, if_pos rfl] at this
  exact Option.noConfusion this

theorem length_zadd_of_mem {z : ZSet} {m : String} (w : ℚ) (hnd : nodupKeys z)
    (h : m ∈ keys z) : (zadd z m w).length = z.length := by
  have := length_zrem_of_mem hnd h
  simp only [zadd, List.length_append, List.length_singleton]
  omega

theorem length_zadd_of_not_mem {z : ZSet} {m : String} (w : ℚ)
    (h : m ∉ keys z) : (zadd z m w).length = z.length + 1 := by
  simp [zadd, zrem_eq_self h]

theorem zscore_zincrby (z : ZSet) (m m' : String) (d : ℚ) :
    zscore (zincrby z m d) m' =
      if m' = m then some ((zscore z m).getD 0 + d) else zscore z m' := by
  simp [zincrby, zscore_zadd]

theorem nodupKeys_zincrby {z : ZSet} (m : String) (d : ℚ) (h : nodupKeys z) :
    nodupKeys (zincrby z m d) := nodupKeys_zadd m _ h

theorem zsort_perm (z : ZSet) : (zsort z).Perm z := List.perm_insertionSort zle z

theorem mem_zrangeAll {z : ZSet} {p : String × ℚ} :
    p ∈ zrangeAll z ↔ p ∈ z := (zsort_perm z).mem_iff

theorem mem_zrangeGE1 {z : ZSet} {p : String × ℚ} :
    p ∈ zrangeGE1 z ↔ p ∈ z ∧ 1 ≤ p.2 := by
  unfold zrangeGE1
  rw [(zsort_perm _).mem_iff]
  simp

theorem nodupKeys_zrangeAll {z : ZSet} (h : nodupKeys z) :
    nodupKeys (zrangeAll z) :=
  (((zsort_perm z).map Prod.fst).nodup_iff).mpr h

theorem nodupKeys_zrangeGE1 {z : ZSet} (h : nodupKeys z) :
    nodupKeys (zrangeGE1 z) := by
  unfold zrangeGE1
  refine (((zsort_perm _).map Prod.fst).nodup_iff).mpr ?_
  exact h.sublist ((List.filter_sublist _).map Prod.fst)

/-! ## Field-level characterization of the edge mutators -/

theorem store_edge_edgesOutZ (s : GraphState) (f t el : String) (w : ℚ)
    (u el' : String) :
    (store_edge s f t el w).edgesOut u el' =
      if u = f ∧ el' = el then zadd (s.edgesOut f el) t w
      else s.edgesOut u el' := by
  simp only [store_edge, upd2]

theorem store_edge_edgesInZ (s : GraphState) (f t el : String) (w : ℚ)
    (u el' : String) :
    (store_edge s f t el w).edgesIn u el' =
      if u = t ∧ el' = el then zadd (s.edgesIn t el) f w
      else s.edgesIn u el' := by
  simp only [store_edge, upd2]

theorem store_edge_labelsOutZ (s : GraphState) (f t el : String) (w : ℚ)
    (u : String) :
    (store_edge s f t el w).labelsOut u =
      if u = f then zincrby (s.labelsOut f) el 1 else s.labelsOut u := by
  simp only [store_edge, upd1]

theorem store_edge_labelsInZ (s : GraphState) (f t el : String) (w : ℚ)
    (u : String) :
    (store_edge s f t el w).labelsIn u =
      if u = t then zincrby (s.labelsIn t) el 1 else s.labelsIn u := by
  simp only [store_edge, upd1]

theorem remove_edge_edgesOutZ (s : GraphState) (f t el : String)
    (u el' : String) :
    (remove_edge_enc s f t el).edgesOut u el' =
      if u = f ∧ el' = el then zrem (s.edgesOut f el) t
      else s.edgesOut u el' := by
  simp only [remove_edge_enc, upd2]

theorem remove_edge_edgesInZ (s : GraphState) (f t el : String)
    (u el' : String) :
    (remove_edge_enc s f t el).edgesIn u el' =
      if u = t ∧ el' = el then zrem (s.edgesIn t el) f
      else s.edgesIn u el' := by
  simp only [remove_edge_enc, upd2]

theorem remove_edge_labelsOutZ (s : GraphState) (f t el : String)
    (u : String) :
    (remove_edge_enc s f t el).labelsOut u =
      if u = f then zincrby (s.labelsOut f) el (-1) else s.labelsOut u := by
  simp only [remove_edge_enc, upd1]

theorem remove_edge_labelsInZ (s : GraphState) (f t el : String)
    (u : String) :
    (remove_edge_enc s f t el).labelsIn u =
      if u = t then zincrby (s.labelsIn t) el (-1) else s.labelsIn u := by
  simp only [remove_edge_enc, upd1]

theorem remove_edge_edgesOut_zscore (s : GraphState) (f t el : String)
    (u el' v : String) :
    zscore ((remove_edge_enc s f t el).edgesOut u el') v =
      if u = f ∧ el' = el ∧ v = t then none
      else zscore (s.edgesOut u el') v := by
  rw [remove_edge_edgesOutZ]
  by_cases h1 : u = f ∧ el' = el
  · rw [if_pos h1, zscore_zrem]
    by_cases h2 : v = t
    · rw [if_pos h2, if_pos ⟨h1.1, h1.2, h2⟩]
    · rw [if_neg h2, if_neg (fun hc => h2 hc.2.2), h1.1, h1.2]
  · rw [if_neg h1, if_neg (fun hc => h1 ⟨hc.1, hc.2.1⟩)]

theorem remove_edge_edgesIn_zscore (s : GraphState) (f t el : String)
    (u el' v : String) :
    zscore ((remove_edge_enc s f t el).edgesIn u el') v =
      if u = t ∧ el' = el ∧ v = f then none
      else zscore (s.edgesIn u el') v := by
  rw [remove_edge_edgesInZ]
  by_cases h1 : u = t ∧ el' = el
  · rw [if_pos h1, zscore_zrem]
    by_cases h2 : v = f
    · rw [if_pos h2, if_pos ⟨h1.1, h1.2, h2⟩]
    · rw [if_neg h2, if_neg (fun hc => h2 hc.2.2), h1.1, h1.2]
  · rw [if_neg h1, if_neg (fun hc => h1 ⟨hc.1, hc.2.1⟩)]

theorem store_edge_edgesOut_zscore (s : GraphState) (f t el : String) (w : ℚ)
    (u el' v : String) :
    zscore ((store_edge s f t el w).edgesOut u el') v =
      if u = f ∧ el' = el ∧ v = t then some w
      else zscore (s.edgesOut u el') v := by
  rw [store_edge_edgesOutZ]
  by_cases h1 : u = f ∧ el' = el
  · rw [if_pos h1, zscore_zadd]
    by_cases h2 : v = t
    · rw [if_pos h2, if_pos ⟨h1.1, h1.2, h2⟩]
    · rw [if_neg h2, if_neg (fun hc => h2 hc.2.2), h1.1, h1.2]
  · rw [if_neg h1, if_neg (fun hc => h1 ⟨hc.1, hc.2.1⟩)]

theorem store_edge_edgesIn_zscore (s : GraphState) (f t el : String) (w : ℚ)
    (u el' v : String) :
    zscore ((store_edge s f t el w).edgesIn u el') v =
      if u = t ∧ el' = el ∧ v = f then some w
      else zscore (s.edgesIn u el') v := by
  rw [store_edge_edgesInZ]
  by_cases h1 : u = t ∧ el' = el
  · rw [if_pos h1, zscore_zadd]
    by_cases h2 : v = f
    · rw [if_pos h2, if_pos ⟨h1.1, h1.2, h2⟩]
    · rw [if_neg h2, if_neg (fun hc => h2 hc.2.2), h1.1, h1.2]
  · rw [if_neg h1, if_neg (fun hc => h1 ⟨hc.1, hc.2.1⟩)]

/-! ## The well-formedness invariant -/

/-- Well-formed store states: member keys are duplicate-free, the out- and
in-adjacency indexes mirror each other, and each label counter dominates
the number of adjacency entries it counts (hence is ≥ 1 whenever any edge
with that label is stored). -/
structure WF (s : GraphState) : Prop where
  nodupV : s.vertices.Nodup
  ndLO : ∀ u, nodupKeys (s.labelsOut u)
  ndLI : ∀ u, nodupKeys (s.labelsIn u)
  ndEO : ∀ u el, nodupKeys (s.edgesOut u el)
  ndEI : ∀ u el, nodupKeys (s.edgesIn u el)
  mirror : ∀ u el v w,
    zscore (s.edgesOut u el) v = some w ↔ zscore (s.edgesIn v el) u = some w
  cntOut : ∀ u el,
    ((s.edgesOut u el).length : ℚ) ≤ (zscore (s.labelsOut u) el).getD 0
  cntIn : ∀ u el,
    ((s.edgesIn u el).length : ℚ) ≤ (zscore (s.labelsIn u) el).getD 0

theorem wf_initState : WF initState := by
  constructor <;> simp [initState, nodupKeys, keys, zscore]

theorem wf_store_vertex {s : GraphState} (n : String) (h : WF s) :
    WF (store_vertex s n).1 := by
  obtain ⟨h1, h2, h3, h4, h5, h6, h7, h8⟩ := h
  refine ⟨?_, h2, h3, h4, h5, h6, h7, h8⟩
  simp only [store_vertex, sadd]
  by_cases hm : n ∈ s.vertices
  · simpa [hm] using h1
  · simp [hm, List.nodup_append, h1]

theorem wf_add_vertex {s : GraphState} (n : Option String) (h : WF s) :
    WF (add_vertex s n).1 := by
  match n with
  | none =>
    have := wf_store_vertex (s := { s with counter := s.counter + 1 })
      (toString (s.counter + 1)) ⟨h.nodupV, h.ndLO, h.ndLI, h.ndEO, h.ndEI, h.mirror, h.cntOut, h.cntIn⟩
    simp only [add_vertex]
    split <;> exact this
  | some n =>
    have := wf_store_vertex n h
    simp only [add_vertex]
    split <;> exact this

theorem wf_store_edge {s : GraphState} (f t el : String) (w : ℚ) (h : WF s) :
    WF (store_edge s f t el w) := by
  refine ⟨h.nodupV, ?_, ?_, ?_, ?_, ?_, ?_, ?_⟩
  · intro u
    rw [store_edge_labelsOutZ]
    split
    · exact nodupKeys_zincrby el 1 (h.ndLO f)
    · exact h.ndLO u
  · intro u
    rw [store_edge_labelsInZ]
    split
    · exact nodupKeys_zincrby el 1 (h.ndLI t)
    · exact h.ndLI u
  · intro u el'
    rw [store_edge_edgesOutZ]
    split
    · exact nodupKeys_zadd t w (h.ndEO f el)
    · exact h.ndEO u el'
  · intro u el'
    rw [store_edge_edgesInZ]
    split
    · exact nodupKeys_zadd f w (h.ndEI t el)
    · exact h.ndEI u el'
  · intro u el' v w'
    rw [store_edge_edgesOut_zscore, store_edge_edgesIn_zscore]
    by_cases hc : u = f ∧ el' = el ∧ v = t
    · rw [if_pos hc, if_pos ⟨hc.2.2, hc.2.1, hc.1⟩]
    · rw [if_neg hc, if_neg (fun hd => hc ⟨hd.2.2, hd.2.1, hd.1⟩)]
      exact h.mirror u el' v w'
  · intro u el'
    rw [store_edge_edgesOutZ, store_edge_labelsOutZ]
    by_cases h1 : u = f
    · subst h1
      by_cases h2 : el' = el
      · subst h2
        rw [if_pos ⟨rfl, rfl⟩, if_pos rfl, zscore_zincrby, if_pos rfl]
        by_cases hm : t ∈ keys (s.edgesOut u el')
        · rw [length_zadd_of_mem w (h.ndEO u el') hm]
          have := h.cntOut u el'
          simp only [Option.getD_some]
          linarith
        · rw [length_zadd_of_not_mem w hm]
          have := h.cntOut u el'
          simp only [Option.getD_some]
          push_cast
          linarith
      · rw [if_neg (fun hc => h2 hc.2), if_pos rfl, zscore_zincrby, if_neg h2]
        exact h.cntOut u el'
    · rw [if_neg (fun hc => h1 hc.1), if_neg h1]
      exact h.cntOut u el'
  · intro u el'
    rw [store_edge_edgesInZ, store_edge_labelsInZ]
    by_cases h1 : u = t
    · subst h1
      by_cases h2 : el' = el
      · subst h2
        rw [if_pos ⟨rfl, rfl⟩, if_pos rfl, zscore_zincrby, if_pos rfl]
        by_cases hm : f ∈ keys (s.edgesIn u el')
        · rw [length_zadd_of_mem w (h.ndEI u el') hm]
          have := h.cntIn u el'
          simp only [Option.getD_some]
          linarith
        · rw [length_zadd_of_not_mem w hm]
          have := h.cntIn u el'
          simp only [Option.getD_some]
          push_cast
          linarith
      · rw [if_neg (fun hc => h2 hc.2), if_pos rfl, zscore_zincrby, if_neg h2]
        exact h.cntIn u el'
    · rw [if_neg (fun hc => h1 hc.1), if_neg h1]
      exact h.cntIn u el'

theorem wf_add_edge_enc {s : GraphState} (f t el : String) (w : ℚ)
    (h : WF s) : WF (add_edge_enc s f t el w).1 := by
  rw [add_edge_enc]
  split
  · split
    · exact wf_store_edge f t el w h
    · exact h
  · exact h

/-- Removing a **stored** edge preserves well-formedness. -/
theorem wf_remove_edge_stored {s : GraphState} {f t el : String} {w : ℚ}
    (hst : zscore (s.edgesOut f el) t = some w) (h : WF s) :
    WF (remove_edge_enc s f t el) := by
  have hstIn : zscore (s.edgesIn t el) f = some w := (h.mirror f el t w).mp hst
  refine ⟨h.nodupV, ?_, ?_, ?_, ?_, ?_, ?_, ?_⟩
  · intro u
    rw [remove_edge_labelsOutZ]
    split
    · exact nodupKeys_zincrby el (-1) (h.ndLO f)
    · exact h.ndLO u
  · intro u
    rw [remove_edge_labelsInZ]
    split
    · exact nodupKeys_zincrby el (-1) (h.ndLI t)
    · exact h.ndLI u
  · intro u el'
    rw [remove_edge_edgesOutZ]
    split
    · exact nodupKeys_zrem t (h.ndEO f el)
    · exact h.ndEO u el'
  · intro u el'
    rw [remove_edge_edgesInZ]
    split
    · exact nodupKeys_zrem f (h.ndEI t el)
    · exact h.ndEI u el'
  · intro u el' v w'
    rw [remove_edge_edgesOut_zscore, remove_edge_edgesIn_zscore]
    by_cases hc : u = f ∧ el' = el ∧ v = t
    · rw [if_pos hc, if_pos ⟨hc.2.2, hc.2.1, hc.1⟩]
    · rw [if_neg hc, if_neg (fun hd => hc ⟨hd.2.2, hd.2.1, hd.1⟩)]
      exact h.mirror u el' v w'
  · intro u el'
    rw [remove_edge_edgesOutZ, remove_edge_labelsOutZ]
    by_cases h1 : u = f
    · subst h1
      by_cases h2 : el' = el
      · subst h2
        rw [if_pos ⟨rfl, rfl⟩, if_pos rfl, zscore_zincrby, if_pos rfl]
        have hmem : t ∈ keys (s.edgesOut u el') := mem_keys_of_zscore hst
        have hlen := length_zrem_of_mem (h.ndEO u el') hmem
        have := h.cntOut u el'
        simp only [Option.getD_some]
        have : ((zrem (s.edgesOut u el') t).length : ℚ) + 1
            ≤ (zscore (s.labelsOut u) el').getD 0 := by
          rw_mod_cast [hlen]
          exact this
        linarith
      · rw [if_neg (fun hc => h2 hc.2), if_pos rfl, zscore_zincrby, if_neg h2]
        exact h.cntOut u el'
    · rw [if_neg (fun hc => h1 hc.1), if_neg h1]
      exact h.cntOut u el'
  · intro u el'
    rw [remove_edge_edgesInZ, remove_edge_labelsInZ]
    by_cases h1 : u = t
    · subst h1
      by_cases h2 : el' = el
      · subst h2
        rw [if_pos ⟨rfl, rfl⟩, if_pos rfl, zscore_zincrby, if_pos rfl]
        have hmem : f ∈ keys (s.edgesIn u el') := mem_keys_of_zscore hstIn
        have hlen := length_zrem_of_mem (h.ndEI u el') hmem
        have hc := h.cntIn u el'
        simp only [Option.getD_some]
        have : ((zrem (s.edgesIn u el') f).length : ℚ) + 1
            ≤ (zscore (s.labelsIn u) el').getD 0 := by
          rw_mod_cast [hlen]
          exact hc
        linarith
      · rw [if_neg (fun hc => h2 hc.2), if_pos rfl, zscore_zincrby, if_neg h2]
        exact h.cntIn u el'
    · rw [if_neg (fun hc => h1 hc.1), if_neg h1]
      exact h.cntIn u el'

/-! ## Characterization of the traversal generators -/

/-- The identity key of an edge handle: the (from, label, to) triple. -/
def ekey (e : EdgeRep) : String × String × String :=
  (e.fromName, e.encLabel, e.toName)

/-- On a well-formed state, `edges_from` yields exactly the stored
out-adjacency entries of `v`, with their stored weights. -/
theorem mem_edgesFromList {s : GraphState} (h : WF s) {v : String}
    {e : EdgeRep} :
    e ∈ edgesFromList s v ↔
      e.fromName = v ∧
      zscore (s.edgesOut v e.encLabel) e.toName = some e.weight := by
  unfold edgesFromList
  constructor
  · intro hm
    obtain ⟨p, hp, hq⟩ := List.mem_flatMap.mp hm
    obtain ⟨q, hqm, rfl⟩ := List.mem_map.mp hq
    exact ⟨rfl, zscore_of_mem (h.ndEO v p.1) (mem_zrangeAll.mp hqm)⟩
  · rintro ⟨hf, hsc⟩
    have hmem : (e.toName, e.weight) ∈ s.edgesOut v e.encLabel :=
      mem_of_zscore hsc
    have hlen : 0 < (s.edgesOut v e.encLabel).length :=
      List.length_pos.mpr (List.ne_nil_of_mem hmem)
    have hcnt := h.cntOut v e.encLabel
    cases hz : zscore (s.labelsOut v) e.encLabel with
    | none =>
      rw [hz] at hcnt
      simp only [Option.getD_none] at hcnt
      have : (0 : ℚ) < (s.edgesOut v e.encLabel).length := by exact_mod_cast hlen
      linarith
    | some c =>
      have h1c : 1 ≤ c := by
        rw [hz] at hcnt
        simp only [Option.getD_some] at hcnt
        have : (1 : ℚ) ≤ (s.edgesOut v e.encLabel).length := by exact_mod_cast hlen
        linarith
      refine List.mem_flatMap.mpr
        ⟨(e.encLabel, c), mem_zrangeGE1.mpr ⟨mem_of_zscore hz, h1c⟩, ?_⟩
      refine List.mem_map.mpr ⟨(e.toName, e.weight), mem_zrangeAll.mpr hmem, ?_⟩
      obtain ⟨a, b, c', d⟩ := e
      simp only at hf
      simp [hf]

/-- On a well-formed state, `edges_to` yields exactly the stored
in-adjacency entries of `v`, with their stored weights. -/
theorem mem_edgesToList {s : GraphState} (h : WF s) {v : String}
    {e : EdgeRep} :
    e ∈ edgesToList s v ↔
      e.toName = v ∧
      zscore (s.edgesIn v e.encLabel) e.fromName = some e.weight := by
  unfold edgesToList
  constructor
  · intro hm
    obtain ⟨p, hp, hq⟩ := List.mem_flatMap.mp hm
    obtain ⟨q, hqm, rfl⟩ := List.mem_map.mp hq
    exact ⟨rfl, zscore_of_mem (h.ndEI v p.1) (mem_zrangeAll.mp hqm)⟩
  · rintro ⟨ht, hsc⟩
    have hmem : (e.fromName, e.weight) ∈ s.edgesIn v e.encLabel :=
      mem_of_zscore hsc
    have hlen : 0 < (s.edgesIn v e.encLabel).length :=
      List.length_pos.mpr (List.ne_nil_of_mem hmem)
    have hcnt := h.cntIn v e.encLabel
    cases hz : zscore (s.labelsIn v) e.encLabel with
    | none =>
      rw [hz] at hcnt
      simp only [Option.getD_none] at hcnt
      have : (0 : ℚ) < (s.edgesIn v e.encLabel).length := by exact_mod_cast hlen
      linarith
    | some c =>
      have h1c : 1 ≤ c := by
        rw [hz] at hcnt
        simp only [Option.getD_some] at hcnt
        have : (1 : ℚ) ≤ (s.edgesIn v e.encLabel).length := by exact_mod_cast hlen
        linarith
      refine List.mem_flatMap.mpr
        ⟨(e.encLabel, c), mem_zrangeGE1.mpr ⟨mem_of_zscore hz, h1c⟩, ?_⟩
      refine List.mem_map.mpr ⟨(e.fromName, e.weight), mem_zrangeAll.mpr hmem, ?_⟩
      obtain ⟨a, b, c', d⟩ := e
      simp only at ht
      simp [ht]

/-- The handles yielded by `edges_from` have pairwise distinct identity
keys. -/
theorem edgesFromList_keysNodup {s : GraphState} (h : WF s) (v : String) :
    ((edgesFromList s v).map ekey).Nodup := by
  unfold edgesFromList
  rw [List.map_flatMap]
  rw [List.nodup_flatMap]
  constructor
  · intro p hp
    rw [List.map_map]
    have hrw : ((zrangeAll (s.edgesOut v p.1)).map
          (ekey ∘ fun q => (⟨v, q.1, p.1, q.2⟩ : EdgeRep)))
        = (keys (zrangeAll (s.edgesOut v p.1))).map
            (fun k => (v, p.1, k)) := by
      simp only [keys, List.map_map]
      rfl
    rw [hrw]
    refine List.Nodup.map ?_ (nodupKeys_zrangeAll (h.ndEO v p.1))
    intro a b hab
    exact congrArg (fun r => r.2.2) hab
  · have hnd : nodupKeys (zrangeGE1 (s.labelsOut v)) :=
      nodupKeys_zrangeGE1 (h.ndLO v)
    have : (zrangeGE1 (s.labelsOut v)).Pairwise (fun a b => a.1 ≠ b.1) := by
      have := hnd
      unfold nodupKeys keys at this
      exact (List.pairwise_map.mp this)
    refine this.imp ?_
    intro a b hab
    rw [Function.onFun]
    intro x hxa hxb
    rw [List.map_map] at hxa hxb
    obtain ⟨qa, _, rfl⟩ := List.mem_map.mp hxa
    obtain ⟨qb, _, hqb⟩ := List.mem_map.mp hxb
    exact hab (by simpa [ekey] using (congrArg (fun r => r.2.1) hqb).symm)

/-- The handles yielded by `edges_to` have pairwise distinct identity
keys. -/
theorem edgesToList_keysNodup {s : GraphState} (h : WF s) (v : String) :
    ((edgesToList s v).map ekey).Nodup := by
  unfold edgesToList
  rw [List.map_flatMap]
  rw [List.nodup_flatMap]
  constructor
  · intro p hp
    rw [List.map_map]
    have hrw : ((zrangeAll (s.edgesIn v p.1)).map
          (ekey ∘ fun q => (⟨q.1, v, p.1, q.2⟩ : EdgeRep)))
        = (keys (zrangeAll (s.edgesIn v p.1))).map
            (fun k => (k, p.1, v)) := by
      simp only [keys, List.map_map]
      rfl
    rw [hrw]
    refine List.Nodup.map ?_ (nodupKeys_zrangeAll (h.ndEI v p.1))
    intro a b hab
    exact congrArg (fun r => r.1) hab
  · have hnd : nodupKeys (zrangeGE1 (s.labelsIn v)) :=
      nodupKeys_zrangeGE1 (h.ndLI v)
    have : (zrangeGE1 (s.labelsIn v)).Pairwise (fun a b => a.1 ≠ b.1) := by
      have := hnd
      unfold nodupKeys keys at this
      exact (List.pairwise_map.mp this)
    refine this.imp ?_
    intro a b hab
    rw [Function.onFun]
    intro x hxa hxb
    rw [List.map_map] at hxa hxb
    obtain ⟨qa, _, rfl⟩ := List.mem_map.mp hxa
    obtain ⟨qb, _, hqb⟩ := List.mem_map.mp hxb
    exact hab (by simpa [ekey] using (congrArg (fun r => r.2.1) hqb).symm)

/-! ## Removing a list of stored edges -/

theorem removeAll_cons (s : GraphState) (e : EdgeRep) (es : List EdgeRep) :
    removeAll s (e :: es) =
      removeAll (remove_edge_enc s e.fromName e.toName e.encLabel) es := rfl

/-- Folding `remove_edge` over a duplicate-free list of stored edges
preserves well-formedness and removes exactly those out-adjacency entries,
touching no vertex data. -/
theorem removeAll_spec {es : List EdgeRep} : ∀ {s : GraphState}, WF s →
    (∀ e ∈ es,
      zscore (s.edgesOut e.fromName e.encLabel) e.toName = some e.weight) →
    (es.map ekey).Nodup →
    WF (removeAll s es) ∧
    (∀ u el x, zscore ((removeAll s es).edgesOut u el) x =
      if (u, el, x) ∈ es.map ekey then none
      else zscore (s.edgesOut u el) x) ∧
    (removeAll s es).vertices = s.vertices ∧
    (removeAll s es).counter = s.counter ∧
    (removeAll s es).props = s.props := by
  induction es with
  | nil =>
    intro s h _ _
    exact ⟨h, by simp [removeAll], rfl, rfl, rfl⟩
  | cons e es ih =>
    intro s h hst hnd
    have he := hst e (List.mem_cons_self e es)
    have hWF1 := wf_remove_edge_stored he h
    rw [List.map_cons, List.nodup_cons] at hnd
    rw [removeAll_cons]
    have hst1 : ∀ e' ∈ es,
        zscore ((remove_edge_enc s e.fromName e.toName e.encLabel).edgesOut
          e'.fromName e'.encLabel) e'.toName = some e'.weight := by
      intro e' he'
      rw [remove_edge_edgesOut_zscore]
      have hne : ¬(e'.fromName = e.fromName ∧ e'.encLabel = e.encLabel ∧
          e'.toName = e.toName) := by
        intro hc
        refine hnd.1 ?_
        have hk : ekey e' = ekey e := by
          simp [ekey, hc.1, hc.2.1, hc.2.2]
        exact hk ▸ List.mem_map_of_mem ekey he'
      rw [if_neg hne]
      exact hst e' (List.mem_cons_of_mem e he')
    obtain ⟨hWF2, hchar, hver, hcnt, hpr⟩ := ih hWF1 hst1 hnd.2
    refine ⟨hWF2, ?_, by rw [hver]; rfl, by rw [hcnt]; rfl, by rw [hpr]; rfl⟩
    intro u el x
    rw [hchar u el x, remove_edge_edgesOut_zscore, List.map_cons]
    by_cases hm : (u, el, x) ∈ es.map ekey
    · rw [if_pos hm, if_pos (List.mem_cons_of_mem _ hm)]
    · rw [if_neg hm]
      by_cases h2 : u = e.fromName ∧ el = e.encLabel ∧ x = e.toName
      · rw [if_pos h2,
          if_pos (List.mem_cons.mpr (Or.inl (by
            simp [ekey, h2.1, h2.2.1, h2.2.2])))]
      · rw [if_neg h2, if_neg ?_]
        intro hc
        rcases List.mem_cons.mp hc with hc | hc
        · refine h2 ?_
          have h3 := congrArg (fun r : String × String × String => r.1) hc
          have h4 := congrArg (fun r : String × String × String => r.2.1) hc
          have h5 := congrArg (fun r : String × String × String => r.2.2) hc
          exact ⟨h3, h4, h5⟩
        · exact hm hc

/-- Full specification of `remove_vertex` on a well-formed state: it
succeeds, drops the vertex from the vertex set, preserves well-formedness,
and leaves no stored adjacency entry whose edge touches `v`. -/
theorem remove_vertex_spec {s : GraphState} {v : String} (h : WF s)
    (hv : v ∈ s.vertices) :
    WF (remove_vertex s v).1 ∧
    (remove_vertex s v).2 = Except.ok 1 ∧
    v ∉ (remove_vertex s v).1.vertices ∧
    (∀ u el x w, zscore ((remove_vertex s v).1.edgesOut u el) x = some w →
      u ≠ v ∧ x ≠ v) := by
  have hstOut : ∀ e ∈ edgesFromList s v,
      zscore (s.edgesOut e.fromName e.encLabel) e.toName = some e.weight := by
    intro e he
    have hm := (mem_edgesFromList h).mp he
    rw [hm.1]
    exact hm.2
  obtain ⟨hWF1, hchar1, hver1, -, -⟩ :=
    removeAll_spec h hstOut (edgesFromList_keysNodup h v)
  have hA : ∀ el x,
      zscore ((removeAll s (edgesFromList s v)).edgesOut v el) x = none := by
    intro el x
    rw [hchar1]
    cases hz : zscore (s.edgesOut v el) x with
    | none => split <;> simp [hz]
    | some w =>
      have hmem : (⟨v, x, el, w⟩ : EdgeRep) ∈ edgesFromList s v :=
        (mem_edgesFromList h).mpr ⟨rfl, hz⟩
      rw [if_pos (by simpa [ekey] using List.mem_map_of_mem ekey hmem)]
  have hstIn : ∀ e ∈ edgesToList (removeAll s (edgesFromList s v)) v,
      zscore ((removeAll s (edgesFromList s v)).edgesOut e.fromName
        e.encLabel) e.toName = some e.weight := by
    intro e he
    have hm := (mem_edgesToList hWF1).mp he
    have hmir := (hWF1.mirror e.fromName e.encLabel v e.weight).mpr hm.2
    rw [hm.1]
    exact hmir
  obtain ⟨hWF2, hchar2, hver2, -, -⟩ :=
    removeAll_spec hWF1 hstIn (edgesToList_keysNodup hWF1 v)
  have hB : ∀ u el x w,
      zscore ((removeAll (removeAll s (edgesFromList s v))
        (edgesToList (removeAll s (edgesFromList s v)) v)).edgesOut u el) x
        = some w → u ≠ v ∧ x ≠ v := by
    intro u el x w hz
    rw [hchar2] at hz
    by_cases hm : (u, el, x) ∈
        (edgesToList (removeAll s (edgesFromList s v)) v).map ekey
    · rw [if_pos hm] at hz
      cases hz
    · rw [if_neg hm] at hz
      constructor
      · rintro rfl
        rw [hA el x] at hz
        cases hz
      · intro hx
        rw [hx] at hz hm
        have hin := (hWF1.mirror u el v w).mp hz
        have hmem : (⟨u, v, el, w⟩ : EdgeRep) ∈
            edgesToList (removeAll s (edgesFromList s v)) v :=
          (mem_edgesToList hWF1).mpr ⟨rfl, hin⟩
        exact hm (by simpa [ekey] using List.mem_map_of_mem ekey hmem)
  unfold remove_vertex
  rw [if_pos hv]
  refine ⟨?_, rfl, ?_, ?_⟩
  · exact ⟨hWF2.nodupV.filter _, hWF2.ndLO, hWF2.ndLI, hWF2.ndEO, hWF2.ndEI,
      hWF2.mirror, hWF2.cntOut, hWF2.cntIn⟩
  · simp
  · intro u el x w hz
    exact hB u el x w hz

theorem wf_remove_vertex {s : GraphState} (v : String) (h : WF s) :
    WF (remove_vertex s v).1 := by
  by_cases hv : v ∈ s.vertices
  · exact (remove_vertex_spec h hv).1
  · unfold remove_vertex
    rw [if_neg hv]
    exact h

/-! ## Reachable states -/

/-- States reachable by sequences of the four public mutators, where every
`remove_edge` call is given a handle of a **currently stored** edge. -/
inductive ReachableStrict : GraphState → Prop where
  | init : ReachableStrict initState
  | addV {s : GraphState} (n : Option String) :
      ReachableStrict s → ReachableStrict (add_vertex s n).1
  | addE {s : GraphState} (f t el : String) (w : ℚ) :
      ReachableStrict s → ReachableStrict (add_edge_enc s f t el w).1
  | remE {s : GraphState} (f t el : String) {w : ℚ}
      (hst : zscore (s.edgesOut f el) t = some w) :
      ReachableStrict s → ReachableStrict (remove_edge_enc s f t el)
  | remV {s : GraphState} (v : String) :
      ReachableStrict s → ReachableStrict (remove_vertex s v).1

/-- States reachable by arbitrary sequences of the four public mutators —
`remove_edge` may be handed any edge handle, stored or not, exactly as the
code permits. -/
inductive ReachableAny : GraphState → Prop where
  | init : ReachableAny initState
  | addV {s : GraphState} (n : Option String) :
      ReachableAny s → ReachableAny (add_vertex s n).1
  | addE {s : GraphState} (f t el : String) (w : ℚ) :
      ReachableAny s → ReachableAny (add_edge_enc s f t el w).1
  | remE {s : GraphState} (f t el : String) :
      ReachableAny s → ReachableAny (remove_edge_enc s f t el)
  | remV {s : GraphState} (v : String) :
      ReachableAny s → ReachableAny (remove_vertex s v).1

theorem wf_of_reachableStrict {s : GraphState} (h : ReachableStrict s) :
    WF s := by
  induction h with
  | init => exact wf_initState
  | addV n _ ih => exact wf_add_vertex n ih
  | addE f t el w _ ih => exact wf_add_edge_enc f t el w ih
  | remE f t el hst _ ih => exact wf_remove_edge_stored hst ih
  | remV v _ ih => exact wf_remove_vertex v ih

/-! ## Python set semantics for identity-hashed handles -/

/-- Inserting objects with pairwise distinct ids never drops anything:
the identity hashes never collide, so `__eq__` is never consulted. -/
theorem pySet_go {β : Type} :
    ∀ (xs acc : List (Nat × β)),
      (∀ x ∈ xs, ∀ y ∈ acc, y.1 ≠ x.1) → (xs.map Prod.fst).Nodup →
      xs.foldl pySetAdd acc = acc ++ xs := by
  intro xs
  induction xs with
  | nil => simp
  | cons x xs ih =>
    intro acc hdisj hnd
    rw [List.map_cons, List.nodup_cons] at hnd
    rw [List.foldl_cons]
    have hadd : pySetAdd acc x = acc ++ [x] := by
      unfold pySetAdd
      rw [if_neg]
      simp only [List.any_eq_true, beq_iff_eq, not_exists]
      intro y
      intro hc
      exact absurd hc.2 (hdisj x (List.mem_cons_self x xs) y hc.1)
    rw [hadd, ih (acc ++ [x]) ?_ hnd.2, List.append_assoc]
    · rfl
    · intro z hz y hy
      rcases List.mem_append.mp hy with hy | hy
      · exact hdisj z (List.mem_cons_of_mem x hz) y hy
      · rw [List.mem_singleton.mp hy]
        intro hc
        exact hnd.1 (hc ▸ List.mem_map_of_mem Prod.fst hz)

theorem pySet_eq_self {β : Type} (xs : List (Nat × β))
    (h : (xs.map Prod.fst).Nodup) : pySet xs = xs := by
  unfold pySet
  rw [pySet_go xs [] (by simp) h]
  simp

theorem upd1_self {β : Type} (f : String → β) (k : String) :
    upd1 f k (f k) = f := by
  funext x
  unfold upd1
  split
  · rename_i h
    rw [h]
  · rfl

theorem upd2_self {β : Type} (f : String → String → β) (k1 k2 : String) :
    upd2 f k1 k2 (f k1 k2) = f := by
  funext x y
  unfold upd2
  split
  · rename_i h
    rw [h.1, h.2]
  · rfl

/-! ## Concrete states used by witnesses and counterexamples -/

/-- `add_vertex("u"); add_vertex("v")` on an empty database. -/
def baseUV : GraphState :=
  (add_vertex (add_vertex initState (some "u")).1 (some "v")).1

/-! ## The claims -/

/-- **C5.** When name `n` is already in the vertex set, a second
`add_vertex(n)` raises `AlreadyExists` (the `SADD` reply 0 is the sole
existence check), the store state is completely unchanged, and `order()`
is therefore identical before and after the failed call. -/
theorem claim_C5 (s : GraphState) (n : String) (h : n ∈ s.vertices) :
    add_vertex s (some n) = (s, .error .alreadyExists) ∧
    order (add_vertex s (some n)).1 = order s := by
  have heq : add_vertex s (some n) = (s, .error .alreadyExists) := by
    simp only [add_vertex, store_vertex, sadd]
    rw [if_pos h]
    rfl
  exact ⟨heq, by rw [heq]⟩

/-- Witness for C5: re-adding "u" to a one-vertex store fails and keeps
`order()` at 1. -/
theorem claim_C5_witness :
    "u" ∈ (add_vertex initState (some "u")).1.vertices ∧
    add_vertex (add_vertex initState (some "u")).1 (some "u")
      = ((add_vertex initState (some "u")).1, .error .alreadyExists) ∧
    order (add_vertex (add_vertex initState (some "u")).1 (some "u")).1
      = order (add_vertex initState (some "u")).1 :=
  ⟨by decide, (claim_C5 (add_vertex initState (some "u")).1 "u" (by decide)).1,
    (claim_C5 (add_vertex initState (some "u")).1 "u" (by decide)).2⟩

/-- **C10.** Neither property operation checks vertex existence: for any
name `n` — in particular one absent from the vertex set — writing a
property on a handle for `n` succeeds (it is a plain `HSET`), leaves the
vertex set untouched, and a subsequent read returns the value (for any
value whose encoding is non-empty, under a faithful codec); no vertex
`NotFound` error can arise. -/
theorem claim_C10 {α : Type} (enc : α → String) (dec : String → α)
    (s : GraphState) (n k : String) (val : α)
    (hrt : dec (enc val) = val) (hne : enc val ≠ "") :
    get_vertex_property dec (set_vertex_property enc s n k val) n k
      = .ok val ∧
    (set_vertex_property enc s n k val).vertices = s.vertices ∧
    get_vertex_property dec (set_vertex_property enc s n k val) n k
      ≠ .error .notFound := by
  have h1 : (set_vertex_property enc s n k val).props n k = some (enc val) := by
    simp [set_vertex_property]
  have h2 : get_vertex_property dec (set_vertex_property enc s n k val) n k
      = .ok val := by
    unfold get_vertex_property
    rw [h1]
    simp only [if_neg hne, hrt]
  exact ⟨h2, rfl, by rw [h2]; simp⟩

/-- Witness for C10: "ghost" was never added as a vertex, yet a property
round-trips through it (identity codec, i.e. `encoder=str, decoder=str`). -/
theorem claim_C10_witness :
    has_vertex initState "ghost" = false ∧
    get_vertex_property (fun x : String => x)
      (set_vertex_property (fun x : String => x) initState "ghost" "k" "xyz")
      "ghost" "k" = .ok "xyz" ∧
    (set_vertex_property (fun x : String => x) initState "ghost" "k" "xyz").vertices
      = initState.vertices :=
  ⟨by decide,
    (claim_C10 (fun x : String => x) (fun x : String => x) initState "ghost" "k"
      "xyz" rfl (by decide)).1,
    (claim_C10 (fun x : String => x) (fun x : String => x) initState "ghost" "k"
      "xyz" rfl (by decide)).2.1⟩

/-- **C8 counterexample.** The claim promises that a stored value whose
encoded form is the empty string is still returned (never misreported as
absent).  With the pluggable identity codec (`encoder=str`), storing `""`
and reading it back raises `KeyError` — the Python truthiness test
`if not value` cannot tell the stored `""` from an absent field — instead
of returning the value. -/
theorem claim_C8_counterexample :
    get_vertex_property (fun x : String => x)
      (set_vertex_property (fun x : String => x) initState "v" "k" "")
      "v" "k" = .error .keyError ∧
    (Except.error Err.keyError : Except Err String) ≠ .ok "" := by
  constructor
  · rfl
  · simp

/-- **C8 (amended).** The set/get round trip returns the stored value
exactly when its encoded form is non-empty (zero-like encodings such as
`"0"` or `"\"\""` included); when the encoded form is the empty string the
value is misreported as absent (`KeyError`), and a key that was never set
also fails with `KeyError`. -/
theorem claim_C8 {α : Type} (enc : α → String) (dec : String → α)
    (s : GraphState) (v k : String) (val : α) (hrt : dec (enc val) = val) :
    (enc val ≠ "" →
      get_vertex_property dec (set_vertex_property enc s v k val) v k
        = .ok val) ∧
    (enc val = "" →
      get_vertex_property dec (set_vertex_property enc s v k val) v k
        = .error .keyError) ∧
    (∀ v2 k2, s.props v2 k2 = none →
      get_vertex_property dec s v2 k2 = .error .keyError) := by
  have h1 : (set_vertex_property enc s v k val).props v k = some (enc val) := by
    simp [set_vertex_property]
  refine ⟨?_, ?_, ?_⟩
  · intro hne
    unfold get_vertex_property
    rw [h1]
    simp only [if_neg hne, hrt]
  · intro he
    unfold get_vertex_property
    rw [h1]
    simp only [if_pos he]
  · intro v2 k2 hnone
    unfold get_vertex_property
    rw [hnone]

/-- Witness for C8 (amended): under the identity codec the Python-falsy
value `"0"` round-trips (its encoding is non-empty), and an unset key
fails with `KeyError`. -/
theorem claim_C8_witness :
    get_vertex_property (fun x : String => x)
      (set_vertex_property (fun x : String => x) initState "v" "k" "0")
      "v" "k" = .ok "0" ∧
    get_vertex_property (fun x : String => x) initState "v" "k2"
      = .error .keyError :=
  ⟨(claim_C8 (fun x : String => x) (fun x : String => x) initState "v" "k" "0"
      rfl).1 (by decide),
    (claim_C8 (fun x : String => x) (fun x : String => x) initState "v" "k" "0"
      rfl).2.2 "v" "k2" rfl⟩

/-- `baseUV` plus `add_edge("u", "v", "l", 2)` (default JSON codec). -/
def c1s : GraphState := (add_edge jsonEnc baseUV "u" "v" (some "l") 2).1

/-- `c1s` plus a second `add_edge("u", "v", "l", 3)` of the same triple. -/
def c1r : GraphState := (add_edge jsonEnc c1s "u" "v" (some "l") 3).1

/-- **C1 counterexample.** Re-adding the stored triple
`("u", "v", "l")` with weight 3 does overwrite the weight, but the
out-label counter of "u" moves from 1 to 2: `_store_edge` executes
`ZINCRBY ... 1` unconditionally, so the counter is **not** left unchanged
as the claim states (§9 of the spec itself records this double-count as
the source's actual behavior). -/
theorem claim_C1_counterexample :
    zscore (c1s.edgesOut "u" "\"l\"") "v" = some 2 ∧
    zscore (c1r.edgesOut "u" "\"l\"") "v" = some 3 ∧
    zscore (c1s.labelsOut "u") "\"l\"" = some 1 ∧
    zscore (c1r.labelsOut "u") "\"l\"" = some 2 ∧
    zscore (c1r.labelsOut "u") "\"l\"" ≠ zscore (c1s.labelsOut "u") "\"l\"" := by
  have h3 : zscore (c1s.labelsOut "u") "\"l\"" = some 1 := by
    simp [c1s, baseUV, add_edge, add_edge_enc, add_vertex, store_vertex, sadd,
      initState, store_edge, upd1, upd2, zincrby, zadd, zrem, zscore, jsonEnc]
  have h4 : zscore (c1r.labelsOut "u") "\"l\"" = some 2 := by
    simp [c1r, c1s, baseUV, add_edge, add_edge_enc, add_vertex, store_vertex,
      sadd, initState, store_edge, upd1, upd2, zincrby, zadd, zrem, zscore,
      jsonEnc, one_add_one_eq_two]
  refine ⟨by decide, by decide, h3, h4, ?_⟩
  rw [h3, h4]
  decide

/-- **C1 (amended).** Re-adding an existing `(from, to, label)` triple
returns a fresh handle, overwrites the stored weight to the new value, and
**increments** both the out-label counter of `from` and the in-label
counter of `to` by one — the counters count `add_edge` calls, not distinct
triples. -/
theorem claim_C1 (s : GraphState) (f t el : String) (w1 w2 : ℚ)
    (hf : f ∈ s.vertices) (ht : t ∈ s.vertices)
    (hst : zscore (s.edgesOut f el) t = some w1) :
    (add_edge_enc s f t el w2).2 = .ok ⟨f, t, el, w2⟩ ∧
    zscore ((add_edge_enc s f t el w2).1.edgesOut f el) t = some w2 ∧
    zscore ((add_edge_enc s f t el w2).1.labelsOut f) el
      = some ((zscore (s.labelsOut f) el).getD 0 + 1) ∧
    zscore ((add_edge_enc s f t el w2).1.labelsIn t) el
      = some ((zscore (s.labelsIn t) el).getD 0 + 1) := by
  have hs1 : (add_edge_enc s f t el w2).1 = store_edge s f t el w2 := by
    unfold add_edge_enc
    rw [if_pos hf, if_pos ht]
  have hr : (add_edge_enc s f t el w2).2 = .ok ⟨f, t, el, w2⟩ := by
    unfold add_edge_enc
    rw [if_pos hf, if_pos ht]
  refine ⟨hr, ?_, ?_, ?_⟩
  · rw [hs1, store_edge_edgesOut_zscore, if_pos ⟨rfl, rfl, rfl⟩]
  · rw [hs1, store_edge_labelsOutZ, if_pos rfl, zscore_zincrby, if_pos rfl]
  · rw [hs1, store_edge_labelsInZ, if_pos rfl, zscore_zincrby, if_pos rfl]

/-- Witness for C1 (amended), at the stored edge `("u","v","\"l\"",2)` of
`c1s`, re-added with weight 3. -/
theorem claim_C1_witness :
    "u" ∈ c1s.vertices ∧ "v" ∈ c1s.vertices ∧
    zscore (c1s.edgesOut "u" "\"l\"") "v" = some 2 ∧
    ((add_edge_enc c1s "u" "v" "\"l\"" 3).2 = .ok ⟨"u", "v", "\"l\"", 3⟩ ∧
      zscore ((add_edge_enc c1s "u" "v" "\"l\"" 3).1.edgesOut "u" "\"l\"") "v"
        = some 3 ∧
      zscore ((add_edge_enc c1s "u" "v" "\"l\"" 3).1.labelsOut "u") "\"l\""
        = some ((zscore (c1s.labelsOut "u") "\"l\"").getD 0 + 1) ∧
      zscore ((add_edge_enc c1s "u" "v" "\"l\"" 3).1.labelsIn "v") "\"l\""
        = some ((zscore (c1s.labelsIn "v") "\"l\"").getD 0 + 1)) :=
  ⟨by decide, by decide, by decide,
    claim_C1 c1s "u" "v" "\"l\"" 2 3 (by decide) (by decide) (by decide)⟩

/-- **C3 counterexample.** Removing the non-stored triple
`("u", "v", "l")` from a two-vertex, zero-edge store is *not* a state
no-op: the `ZINCRBY ... -1` runs unconditionally and creates the label
counter member at score −1 (and likewise for the in-counter), so a label
counter *is* modified. -/
theorem claim_C3_counterexample :
    zscore (baseUV.edgesOut "u" "\"l\"") "v" = none ∧
    zscore (baseUV.labelsOut "u") "\"l\"" = none ∧
    zscore ((remove_edge jsonEnc baseUV "u" "v" (some "l")).labelsOut "u")
      "\"l\"" = some (-1) ∧
    zscore ((remove_edge jsonEnc baseUV "u" "v" (some "l")).labelsOut "u")
      "\"l\"" ≠ zscore (baseUV.labelsOut "u") "\"l\"" := by
  refine ⟨by decide, by decide, ?_, ?_⟩
  · simp [baseUV, add_vertex, store_vertex, sadd, initState, remove_edge,
      remove_edge_enc, upd1, upd2, zincrby, zadd, zrem, zscore, jsonEnc]
  · simp [baseUV, add_vertex, store_vertex, sadd, initState, remove_edge,
      remove_edge_enc, upd1, upd2, zincrby, zadd, zrem, zscore, jsonEnc]

/-- **C3 (amended).** `remove_edge` on a handle for a triple that is not
stored (in either adjacency direction) always returns success (the Python
method unconditionally returns `True`) and modifies **no adjacency
entry** — but it is not a state no-op: it decrements the out-label counter
of `from` and the in-label counter of `to` by one, creating the counter
member (at score −1) when absent; all other label counters are
untouched. -/
theorem claim_C3 {α : Type} (enc : α → String) (s : GraphState)
    (f t : String) (label : α)
    (hout : zscore (s.edgesOut f (enc label)) t = none)
    (hin : zscore (s.edgesIn t (enc label)) f = none) :
    (remove_edge enc s f t label).edgesOut = s.edgesOut ∧
    (remove_edge enc s f t label).edgesIn = s.edgesIn ∧
    (remove_edge enc s f t label).vertices = s.vertices ∧
    zscore ((remove_edge enc s f t label).labelsOut f) (enc label)
      = some ((zscore (s.labelsOut f) (enc label)).getD 0 - 1) ∧
    zscore ((remove_edge enc s f t label).labelsIn t) (enc label)
      = some ((zscore (s.labelsIn t) (enc label)).getD 0 - 1) ∧
    (∀ u el, ¬(u = f ∧ el = enc label) →
      zscore ((remove_edge enc s f t label).labelsOut u) el
        = zscore (s.labelsOut u) el) ∧
    (∀ u el, ¬(u = t ∧ el = enc label) →
      zscore ((remove_edge enc s f t label).labelsIn u) el
        = zscore (s.labelsIn u) el) := by
  refine ⟨?_, ?_, rfl, ?_, ?_, ?_, ?_⟩
  · show upd2 s.edgesOut f (enc label)
        (zrem (s.edgesOut f (enc label)) t) = s.edgesOut
    rw [zrem_eq_self (zscore_eq_none.mp hout), upd2_self]
  · show upd2 s.edgesIn t (enc label)
        (zrem (s.edgesIn t (enc label)) f) = s.edgesIn
    rw [zrem_eq_self (zscore_eq_none.mp hin), upd2_self]
  · show zscore ((remove_edge_enc s f t (enc label)).labelsOut f) (enc label)
        = _
    rw [remove_edge_labelsOutZ, if_pos rfl, zscore_zincrby, if_pos rfl,
      sub_eq_add_neg]
  · show zscore ((remove_edge_enc s f t (enc label)).labelsIn t) (enc label)
        = _
    rw [remove_edge_labelsInZ, if_pos rfl, zscore_zincrby, if_pos rfl,
      sub_eq_add_neg]
  · intro u el hne
    show zscore ((remove_edge_enc s f t (enc label)).labelsOut u) el = _
    rw [remove_edge_labelsOutZ]
    by_cases hu : u = f
    · rw [if_pos hu, zscore_zincrby, if_neg (fun hc => hne ⟨hu, hc⟩), hu]
    · rw [if_neg hu]
  · intro u el hne
    show zscore ((remove_edge_enc s f t (enc label)).labelsIn u) el = _
    rw [remove_edge_labelsInZ]
    by_cases hu : u = t
    · rw [if_pos hu, zscore_zincrby, if_neg (fun hc => hne ⟨hu, hc⟩), hu]
    · rw [if_neg hu]

/-- Witness for C3 (amended) on `baseUV`, whose store holds no edges. -/
theorem claim_C3_witness :
    zscore (baseUV.edgesOut "u" "\"l\"") "v" = none ∧
    zscore (baseUV.edgesIn "v" "\"l\"") "u" = none ∧
    ((remove_edge jsonEnc baseUV "u" "v" (some "l")).edgesOut
        = baseUV.edgesOut ∧
      (remove_edge jsonEnc baseUV "u" "v" (some "l")).edgesIn
        = baseUV.edgesIn ∧
      (remove_edge jsonEnc baseUV "u" "v" (some "l")).vertices
        = baseUV.vertices) :=
  ⟨by decide, by decide,
    ⟨(claim_C3 jsonEnc baseUV "u" "v" (some "l") (by decide) (by decide)).1,
      (claim_C3 jsonEnc baseUV "u" "v" (some "l") (by decide) (by decide)).2.1,
      (claim_C3 jsonEnc baseUV "u" "v" (some "l") (by decide) (by decide)).2.2.1⟩⟩

/-- `baseUV` with two parallel labelled edges to the same target:
`add_edge("u","v","l1",1)` and `add_edge("u","v","l2",1)`. -/
def c2s : GraphState :=
  (add_edge jsonEnc (add_edge jsonEnc baseUV "u" "v" (some "l1") 1).1
    "u" "v" (some "l2") 1).1

/-- **C2 counterexample.** With two distinctly-labelled edges from "u" to
the same target "v", `u.out_e.in_v` holds **two** members named "v", not
one: `Vertex`/`Edge` define `__eq__` but no `__hash__`, so Python-2 sets
bucket the fresh handles by identity hash and never consult name equality
— membership does *not* deduplicate by the entity's identity key. -/
theorem claim_C2_counterexample :
    out_e_in_v_names c2s "u" = ["v", "v"] ∧
    specDistinctTargets c2s "u" = ["v"] ∧
    out_e_in_v_names c2s "u" ≠ specDistinctTargets c2s "u" ∧
    (out_e_in_v_names c2s "u").count "v" = 2 := by
  have h1 : out_e_in_v_names c2s "u" = ["v", "v"] := by
    simp only [c2s, baseUV, add_edge, add_edge_enc, add_vertex, store_vertex,
      sadd, initState, store_edge, upd1, upd2, zincrby, zadd, zrem, zscore,
      jsonEnc]
    simp [out_e_in_v_names, edgeSet_in_v, vertex_out_e, pySet, pySetAdd,
      edgesFromList, zrangeGE1, zrangeAll, zsort, zle, zscore, upd1, upd2]
    decide
  have h2 : specDistinctTargets c2s "u" = ["v"] := by
    simp only [c2s, baseUV, add_edge, add_edge_enc, add_vertex, store_vertex,
      sadd, initState, store_edge, upd1, upd2, zincrby, zadd, zrem, zscore,
      jsonEnc]
    simp [specDistinctTargets, edgesFromList, zrangeGE1, zrangeAll, zsort, zle,
      zscore, upd1, upd2]
    decide
  refine ⟨h1, h2, ?_, by rw [h1]; decide⟩
  rw [h1, h2]
  decide

/-- **C2 (amended).** `v.out_e.in_v` retains one member per outgoing edge
of `v` (handles are kept apart by their identity-based hash), so its
member names are exactly the per-edge multiset of target names — equal to
the deduplicated target set only when no two out-edges share a target. -/
theorem claim_C2 (s : GraphState) (v : String) :
    out_e_in_v_names s v = (edgesFromList s v).map EdgeRep.toName := by
  unfold out_e_in_v_names edgeSet_in_v vertex_out_e
  have hinner : pySet (edgesFromList s v).enum = (edgesFromList s v).enum :=
    pySet_eq_self _ (by rw [List.enum_map_fst]; exact List.nodup_range _)
  rw [hinner]
  rw [pySet_eq_self _ (by
    rw [List.map_map]
    have hcomp : (Prod.fst ∘ fun p : Nat × EdgeRep => (p.1, p.2.toName))
        = (Prod.fst : Nat × EdgeRep → Nat) := rfl
    rw [hcomp, List.enum_map_fst]
    exact List.nodup_range _)]
  rw [List.map_map]
  have hcomp2 : (Prod.snd ∘ fun p : Nat × EdgeRep => (p.1, p.2.toName))
      = (fun p : Nat × EdgeRep => p.2.toName) := rfl
  rw [hcomp2]
  have hsplit : (fun p : Nat × EdgeRep => p.2.toName)
      = (EdgeRep.toName ∘ Prod.snd) := rfl
  rw [hsplit, ← List.map_map, List.enum_map_snd]

/-- `baseUV` with `add_edge("u","v",l,1)` and the reverse
`add_edge("v","u",l,5)` under the same label. -/
def c7s : GraphState :=
  (add_edge_enc (add_edge_enc baseUV "u" "v" "\"l\"" 1).1 "v" "u" "\"l\"" 5).1

/-- **C7 counterexample.** The edge `("u","v",l)` with weight 1 is stored,
yet `edge_between("v","u",l)` does not report weight 1: it probes the
`v → u` out-adjacency first and finds the *reverse* edge's weight 5.  The
claim's "both return an edge reporting weight w" fails as soon as the
opposite orientation of the same labelled pair is also stored with a
different weight. -/
theorem claim_C7_counterexample :
    zscore (c7s.edgesOut "u" "\"l\"") "v" = some 1 ∧
    edge_between_enc c7s "v" "u" "\"l\"" = some ⟨"v", "u", "\"l\"", 5⟩ ∧
    (edge_between_enc c7s "v" "u" "\"l\"").map EdgeRep.weight ≠ some 1 := by
  refine ⟨by decide, by decide, ?_⟩
  have h : edge_between_enc c7s "v" "u" "\"l\"" = some ⟨"v", "u", "\"l\"", 5⟩ := by
    decide
  rw [h]
  simp only [Option.map_some, ne_eq, Option.some.injEq]
  norm_num

/-- **C7 (amended).** After a successful `add_edge(f, t, label, w)`:
`edge_between(f, t, label)` reports the stored edge with weight `w`;
`edge_between(t, f, label)` reports it too **provided** no reverse edge
`(t, f, label)` is stored — if one is, its weight is what is reported,
oriented `t → f`.  In general `edge_between` probes the `v1 → v2`
out-adjacency first, then `v2 → v1`, returns the first hit oriented
accordingly, and `none` when neither holds an entry for the label. -/
theorem claim_C7 (s : GraphState) (f t el : String) (w : ℚ)
    (hf : f ∈ s.vertices) (ht : t ∈ s.vertices) :
    (add_edge_enc s f t el w).2 = .ok ⟨f, t, el, w⟩ ∧
    edge_between_enc (add_edge_enc s f t el w).1 f t el
      = some ⟨f, t, el, w⟩ ∧
    (zscore ((add_edge_enc s f t el w).1.edgesOut t el) f = none →
      edge_between_enc (add_edge_enc s f t el w).1 t f el
        = some ⟨f, t, el, w⟩) ∧
    (∀ w2, zscore ((add_edge_enc s f t el w).1.edgesOut t el) f = some w2 →
      edge_between_enc (add_edge_enc s f t el w).1 t f el
        = some ⟨t, f, el, w2⟩) ∧
    (∀ (s2 : GraphState) (a b el2 : String),
      zscore (s2.edgesOut a el2) b = none →
      zscore (s2.edgesOut b el2) a = none →
      edge_between_enc s2 a b el2 = none) := by
  have hs1 : (add_edge_enc s f t el w).1 = store_edge s f t el w := by
    unfold add_edge_enc
    rw [if_pos hf, if_pos ht]
  have hr : (add_edge_enc s f t el w).2 = .ok ⟨f, t, el, w⟩ := by
    unfold add_edge_enc
    rw [if_pos hf, if_pos ht]
  have hfwd : zscore ((add_edge_enc s f t el w).1.edgesOut f el) t = some w := by
    rw [hs1, store_edge_edgesOut_zscore, if_pos ⟨rfl, rfl, rfl⟩]
  refine ⟨hr, ?_, ?_, ?_, ?_⟩
  · unfold edge_between_enc
    rw [hfwd]
  · intro hrev
    unfold edge_between_enc
    rw [hrev, hfwd]
  · intro w2 hrev
    unfold edge_between_enc
    rw [hrev]
  · intro s2 a b el2 hab hba
    unfold edge_between_enc
    rw [hab, hba]

/-- Witness for C7 (amended): one edge `("u","v",l,2)` on `baseUV`, with
no reverse edge stored. -/
theorem claim_C7_witness :
    "u" ∈ baseUV.vertices ∧ "v" ∈ baseUV.vertices ∧
    zscore ((add_edge_enc baseUV "u" "v" "\"l\"" 2).1.edgesOut "v" "\"l\"") "u"
      = none ∧
    edge_between_enc (add_edge_enc baseUV "u" "v" "\"l\"" 2).1 "u" "v" "\"l\""
      = some ⟨"u", "v", "\"l\"", 2⟩ ∧
    edge_between_enc (add_edge_enc baseUV "u" "v" "\"l\"" 2).1 "v" "u" "\"l\""
      = some ⟨"u", "v", "\"l\"", 2⟩ :=
  ⟨by decide, by decide, by decide,
    (claim_C7 baseUV "u" "v" "\"l\"" 2 (by decide) (by decide)).2.1,
    (claim_C7 baseUV "u" "v" "\"l\"" 2 (by decide) (by decide)).2.2.1 (by decide)⟩

/-- Vertices "u","v","w"; edges `(u,v,l,1)` and `(u,w,l,1)`; then
`remove_edge(u,v,l)` **twice** — the second call passes a handle for a
no-longer-stored triple, which the code accepts. -/
def c4bad : GraphState :=
  remove_edge_enc
    (remove_edge_enc
      (add_edge_enc
        (add_edge_enc
          (add_vertex (add_vertex (add_vertex initState
            (some "u")).1 (some "v")).1 (some "w")).1
          "u" "v" "\"l\"" 1).1
        "u" "w" "\"l\"" 1).1
      "u" "v" "\"l\"")
    "u" "v" "\"l\""

/-- **C4 counterexample.** `c4bad` is reachable by a sequence of the four
public mutators, stores the edge `("u","w","l",1)`, yet "u"'s out-label
counter for `l` is 0: the double `remove_edge` drove it from 2 to 0 even
though one edge with that label is still stored, so the claimed invariant
"the label counters are ≥ 1 for every stored edge" does not hold in all
reachable states. -/
theorem claim_C4_counterexample :
    ReachableAny c4bad ∧
    zscore (c4bad.edgesOut "u" "\"l\"") "w" = some 1 ∧
    zscore (c4bad.labelsOut "u") "\"l\"" = some 0 ∧
    ¬(1 ≤ (zscore (c4bad.labelsOut "u") "\"l\"").getD 0) := by
  have hcnt : zscore (c4bad.labelsOut "u") "\"l\"" = some 0 := by
    simp only [c4bad, add_vertex, store_vertex, sadd, initState, add_edge_enc,
      store_edge, remove_edge_enc, upd1, upd2, zincrby, zadd, zrem, zscore]
    norm_num
  refine ⟨?_, by decide, hcnt, by rw [hcnt]; norm_num⟩
  exact .remE "u" "v" "\"l\""
    (.remE "u" "v" "\"l\""
      (.addE "u" "w" "\"l\"" 1
        (.addE "u" "v" "\"l\"" 1
          (.addV (some "w") (.addV (some "v") (.addV (some "u") .init))))))

/-- **C4 (amended).** In every state reachable by sequences of
`add_vertex` / `add_edge` / `remove_edge` / `remove_vertex` in which each
`remove_edge` call is given a handle of a currently stored triple, every
stored edge `(u, v, label, w)` is mirrored — the out-adjacency of `u` and
the in-adjacency of `v` both carry score `w` — and the out/in label
counters of `u`/`v` for that label are ≥ 1.  (Without the restriction on
`remove_edge` the counter part fails; see the counterexample.) -/
theorem claim_C4 {s : GraphState} (h : ReachableStrict s) :
    ∀ u el v w, zscore (s.edgesOut u el) v = some w →
      zscore (s.edgesIn v el) u = some w ∧
      1 ≤ (zscore (s.labelsOut u) el).getD 0 ∧
      1 ≤ (zscore (s.labelsIn v) el).getD 0 := by
  have hWF := wf_of_reachableStrict h
  intro u el v w hz
  refine ⟨(hWF.mirror u el v w).mp hz, ?_, ?_⟩
  · have hlen : 0 < (s.edgesOut u el).length :=
      List.length_pos.mpr (List.ne_nil_of_mem (mem_of_zscore hz))
    have hc := hWF.cntOut u el
    have h1 : (1 : ℚ) ≤ ((s.edgesOut u el).length : ℚ) := by exact_mod_cast hlen
    linarith
  · have hin := (hWF.mirror u el v w).mp hz
    have hlen : 0 < (s.edgesIn v el).length :=
      List.length_pos.mpr (List.ne_nil_of_mem (mem_of_zscore hin))
    have hc := hWF.cntIn v el
    have h1 : (1 : ℚ) ≤ ((s.edgesIn v el).length : ℚ) := by exact_mod_cast hlen
    linarith

/-- One stored edge `("u","v","\"l\"",2)` on `baseUV`. -/
def c4w : GraphState := (add_edge_enc baseUV "u" "v" "\"l\"" 2).1

/-- Witness for C4 (amended) at the strictly-reachable state `c4w`. -/
theorem claim_C4_witness :
    zscore (c4w.edgesOut "u" "\"l\"") "v" = some 2 ∧
    (zscore (c4w.edgesIn "v" "\"l\"") "u" = some 2 ∧
      1 ≤ (zscore (c4w.labelsOut "u") "\"l\"").getD 0 ∧
      1 ≤ (zscore (c4w.labelsIn "v") "\"l\"").getD 0) :=
  ⟨by decide,
    claim_C4
      (.addE "u" "v" "\"l\"" 2 (.addV (some "v") (.addV (some "u") .init)))
      "u" "\"l\"" "v" 2 (by decide)⟩

/-- **C6 counterexample.** The claim quantifies over every extant vertex
with no well-formedness condition, but it fails in an API-reachable
state: in `c4bad` (edges `(u,v,l)` and `(u,w,l)` added, then
`remove_edge(u,v,l)` called twice, zeroing "u"'s out-label counter while
`(u,w,l)` is still stored), `remove_vertex("u")` succeeds and removes "u"
from the vertex set, yet its edge loops enumerate nothing — `ZRANGEBYSCORE
1 +inf` sees the zeroed counter — so the stored edge `u → w` survives and
the extant vertex "w"'s `in_e` enumeration still yields an edge
referencing the removed "u". -/
theorem claim_C6_counterexample :
    ReachableAny c4bad ∧
    "u" ∈ c4bad.vertices ∧
    (remove_vertex c4bad "u").2 = .ok 1 ∧
    "u" ∉ (remove_vertex c4bad "u").1.vertices ∧
    "w" ∈ (remove_vertex c4bad "u").1.vertices ∧
    edgesToList (remove_vertex c4bad "u").1 "w"
      = [⟨"u", "w", "\"l\"", 1⟩] := by
  have hlo : c4bad.labelsOut "u" = [("\"l\"", 0)] := by
    simp [c4bad, add_vertex, store_vertex, sadd, initState, add_edge_enc,
      store_edge, remove_edge_enc, upd1, upd2, zincrby, zadd, zrem, zscore]
  have hli : c4bad.labelsIn "u" = [] := by decide
  have hout : edgesFromList c4bad "u" = [] := by
    unfold edgesFromList
    rw [hlo]
    decide
  have hin : edgesToList c4bad "u" = [] := by
    unfold edgesToList
    rw [hli]
    decide
  have hmem : "u" ∈ c4bad.vertices := by decide
  have hra : removeAll c4bad [] = c4bad := rfl
  have hrv : remove_vertex c4bad "u"
      = ({ c4bad with vertices := ["v", "w"] }, .ok 1) := by
    simp only [remove_vertex]
    rw [if_pos hmem, hout, hra, hin, hra]
    rfl
  have hliw : c4bad.labelsIn "w" = [("\"l\"", 1)] := by
    simp [c4bad, add_vertex, store_vertex, sadd, initState, add_edge_enc,
      store_edge, remove_edge_enc, upd1, upd2, zincrby, zadd, zrem, zscore]
  refine ⟨?_, hmem, ?_, ?_, ?_, ?_⟩
  · exact .remE "u" "v" "\"l\""
      (.remE "u" "v" "\"l\""
        (.addE "u" "w" "\"l\"" 1
          (.addE "u" "v" "\"l\"" 1
            (.addV (some "w") (.addV (some "v") (.addV (some "u") .init))))))
  · rw [hrv]
  · rw [hrv]
    decide
  · rw [hrv]
    decide
  · rw [hrv]
    show edgesToList { c4bad with vertices := ["v", "w"] } "w" = _
    unfold edgesToList
    rw [show ({ c4bad with vertices := ["v", "w"] } : GraphState).labelsIn
        = c4bad.labelsIn from rfl]
    rw [show ({ c4bad with vertices := ["v", "w"] } : GraphState).edgesIn
        = c4bad.edgesIn from rfl]
    rw [hliw]
    decide

/-- **C6 (amended).** On a **well-formed** state — the mirrored-adjacency
and counter-dominance invariant of `WF`, which holds in every state
reachable when `remove_edge` is only applied to stored triples —
`remove_vertex(v)` for an extant `v`, self-loops and parallel labels
included, succeeds, removes `v` from the vertex set, performs full edge
removal for every incident edge (the result is again well-formed, so
counters and the mirrored adjacency stay consistent), and afterwards no
vertex's `out_e`/`in_e` enumeration contains an edge referencing `v`.
Without well-formedness the conclusion fails (see the counterexample: a
corrupted label counter hides a stored incident edge from the removal
loops).  In the embedding, as in the source, the edge-removal loops run
before the `SREM` of the vertex name. -/
theorem claim_C6 {s : GraphState} {v : String} (h : WF s)
    (hv : v ∈ s.vertices) :
    (remove_vertex s v).2 = .ok 1 ∧
    v ∉ (remove_vertex s v).1.vertices ∧
    WF (remove_vertex s v).1 ∧
    (∀ u el x w, zscore ((remove_vertex s v).1.edgesOut u el) x = some w →
      u ≠ v ∧ x ≠ v) ∧
    (∀ x, ∀ e ∈ edgesFromList (remove_vertex s v).1 x,
      e.fromName ≠ v ∧ e.toName ≠ v) ∧
    (∀ x, ∀ e ∈ edgesToList (remove_vertex s v).1 x,
      e.fromName ≠ v ∧ e.toName ≠ v) := by
  obtain ⟨hWF3, hok, hvout, hB⟩ := remove_vertex_spec h hv
  refine ⟨hok, hvout, hWF3, hB, ?_, ?_⟩
  · intro x e he
    have hm := (mem_edgesFromList hWF3).mp he
    have hx := hB x e.encLabel e.toName e.weight hm.2
    exact ⟨by rw [hm.1]; exact hx.1, hx.2⟩
  · intro x e he
    have hm := (mem_edgesToList hWF3).mp he
    have hmir := (hWF3.mirror e.fromName e.encLabel x e.weight).mpr hm.2
    have hx := hB e.fromName e.encLabel x e.weight hmir
    exact ⟨hx.1, by rw [hm.1]; exact hx.2⟩

/-- `baseUV` with a self-loop on "u" and an edge to "v". -/
def c6s : GraphState :=
  (add_edge_enc (add_edge_enc baseUV "u" "u" "\"l\"" 1).1 "u" "v" "\"m\"" 3).1

/-- Witness for C6 on a state with a self-loop and a second labelled
edge. -/
theorem claim_C6_witness :
    "u" ∈ c6s.vertices ∧
    (remove_vertex c6s "u").2 = .ok 1 ∧
    "u" ∉ (remove_vertex c6s "u").1.vertices :=
  ⟨by decide,
    (claim_C6 (wf_of_reachableStrict
      (.addE "u" "v" "\"m\"" 3 (.addE "u" "u" "\"l\"" 1
        (.addV (some "v") (.addV (some "u") .init))))) (by decide)).1,
    (claim_C6 (wf_of_reachableStrict
      (.addE "u" "v" "\"m\"" 3 (.addE "u" "u" "\"l\"" 1
        (.addV (some "v") (.addV (some "u") .init))))) (by decide)).2.1⟩

/-- **C9.** The bulk loader, line by line and batch by batch:
(a) a line whose stripped form is empty or starts with `#` is skipped;
(b) 2 trimmed fields load as `(from, to)` with label `None`, weight 1;
(c) 3 fields load as `(from, label, to)` with weight 1;
(d) 4 fields load as `(from, label, to, weight)` with `float(weight)`;
(e) any other field count raises the format error (`RuntimeError`);
(f) a raising chunk aborts the load and contributes nothing (its pipeline
never executes), while every chunk flushed before it stays committed;
(g) `_load_file` is exactly the chunk loop over `chunker(lines, n)`. -/
theorem claim_C9 :
    (∀ (enc : Option String → String) (d : Char) (s : GraphState)
      (raw : String),
      (pyStrip raw).data = [] ∨ (pyStrip raw).data.head? = some '#' →
      processLine enc d s raw = .ok s) ∧
    (∀ enc d s raw f t,
      ¬((pyStrip raw).data.head? = some '#' ∨ (pyStrip raw).data = []) →
      pyFields d (pyStrip raw) = [f, t] →
      processLine enc d s raw = .ok (storeRecord enc s f none t 1)) ∧
    (∀ enc d s raw f lab t,
      ¬((pyStrip raw).data.head? = some '#' ∨ (pyStrip raw).data = []) →
      pyFields d (pyStrip raw) = [f, lab, t] →
      processLine enc d s raw = .ok (storeRecord enc s f (some lab) t 1)) ∧
    (∀ enc d s raw f lab t wstr w,
      ¬((pyStrip raw).data.head? = some '#' ∨ (pyStrip raw).data = []) →
      pyFields d (pyStrip raw) = [f, lab, t, wstr] →
      parseFloat wstr = some w →
      processLine enc d s raw = .ok (storeRecord enc s f (some lab) t w)) ∧
    (∀ enc d s raw fields,
      ¬((pyStrip raw).data.head? = some '#' ∨ (pyStrip raw).data = []) →
      pyFields d (pyStrip raw) = fields →
      fields.length ≠ 2 → fields.length ≠ 3 → fields.length ≠ 4 →
      processLine enc d s raw = .error .formatError) ∧
    (∀ (enc : Option String → String) (d : Char) (s s1 : GraphState)
      (cs : List (List String)) (c : List String) (cs2 : List (List String))
      (e : Err),
      loadChunks enc d s cs = (s1, none) →
      processChunk enc d s1 c = .error e →
      loadChunks enc d s (cs ++ c :: cs2) = (s1, some e)) ∧
    (∀ (enc : Option String → String) (s : GraphState) (lines : List String)
      (n : Nat) (d : Char),
      load_file enc s lines n d = loadChunks enc d s (chunksOf n lines)) := by
  refine ⟨?_, ?_, ?_, ?_, ?_, ?_, ?_⟩
  · intro enc d s raw h
    simp only [processLine]
    rw [if_pos (Or.symm h)]
  · intro enc d s raw f t hns hf
    simp only [processLine]
    rw [if_neg hns, hf]
  · intro enc d s raw f lab t hns hf
    simp only [processLine]
    rw [if_neg hns, hf]
  · intro enc d s raw f lab t wstr w hns hf hw
    simp only [processLine]
    rw [if_neg hns, hf]
    simp only [hw]
  · intro enc d s raw fields hns hf h2 h3 h4
    simp only [processLine]
    rw [if_neg hns, hf]
    match fields, h2, h3, h4 with
    | [], _, _, _ => rfl
    | [a], _, _, _ => rfl
    | [a, b], h2, _, _ => exact absurd rfl h2
    | [a, b, c], _, h3, _ => exact absurd rfl h3
    | [a, b, c, e4], _, _, h4 => exact absurd rfl h4
    | a :: b :: c :: e4 :: e5 :: rest, _, _, _ => rfl
  · intro enc d s s1 cs
    induction cs generalizing s with
    | nil =>
      intro c cs2 e h0 hc
      have hs : s = s1 := by
        simpa [loadChunks] using congrArg Prod.fst h0
      subst hs
      simp only [List.nil_append, loadChunks, hc]
    | cons c0 cs ih =>
      intro c cs2 e h0 hc
      rw [List.cons_append]
      simp only [loadChunks] at h0 ⊢
      cases hp : processChunk enc d s c0 with
      | error e0 =>
        rw [hp] at h0
        exact absurd (congrArg Prod.snd h0) (by simp)
      | ok s2 =>
        rw [hp] at h0
        exact ih s2 c cs2 e h0 hc
  · intro enc s lines n d
    rfl

/-- Witness for C9: a comment line is skipped; `"a,b"`, `"a,l,b"` and
`"a,l,b,2"` parse as the 2-, 3- and 4-field forms; a 5-field line raises
the format error; and a load whose only batch contains the 5-field line
fails while the (empty) prefix of earlier batches stays committed. -/
theorem claim_C9_witness :
    (pyStrip "  # note").data.head? = some '#' ∧
    processLine jsonEnc ',' initState "  # note" = .ok initState ∧
    processLine jsonEnc ',' initState "a,b"
      = .ok (storeRecord jsonEnc initState "a" none "b" 1) ∧
    processLine jsonEnc ',' initState "a,l,b"
      = .ok (storeRecord jsonEnc initState "a" (some "l") "b" 1) ∧
    processLine jsonEnc ',' initState "a,l,b,2"
      = .ok (storeRecord jsonEnc initState "a" (some "l") "b" 2) ∧
    processLine jsonEnc ',' initState "a,b,c,d,e" = .error .formatError ∧
    loadChunks jsonEnc ',' initState ([] ++ ["a,b,c,d,e"] :: [])
      = (initState, some .formatError) :=
  ⟨by decide,
    claim_C9.1 jsonEnc ',' initState "  # note" (Or.inr (by decide)),
    claim_C9.2.1 jsonEnc ',' initState "a,b" "a" "b" (by decide) (by decide),
    claim_C9.2.2.1 jsonEnc ',' initState "a,l,b" "a" "l" "b"
      (by decide) (by decide),
    claim_C9.2.2.2.1 jsonEnc ',' initState "a,l,b,2" "a" "l" "b" "2" 2
      (by decide) (by decide) (by decide),
    claim_C9.2.2.2.2.1 jsonEnc ',' initState "a,b,c,d,e"
      ["a", "b", "c", "d", "e"] (by decide) (by decide)
      (by decide) (by decide) (by decide),
    claim_C9.2.2.2.2.2.1 jsonEnc ',' initState initState [] ["a,b,c,d,e"] []
      .formatError rfl rfl⟩

end Hyperion
